import Mathlib

/-!
# deck-o-cards: a 52-card deck packed into a 64-bit mask

Shallow embedding of `src/main.cpp`.

* `uint64_t` / `std::size_t` values are natural numbers, reduced modulo `2^64`
  wherever the C++ arithmetic can wrap.
* `int` values are integers; `toInt` is the (modular) conversion from an
  unsigned 64-bit value to a 32-bit `int`, `toU64` the conversion back.
* `std::endian::native` is the parameter `e : Endian`.
* `std::rand()` is an oracle: every operation receives the value(s) the
  generator hands out during that invocation.
* Loops that the source does not bound run on a fuel argument; running out of
  fuel is the outcome `outOfFuel`, distinct from returning and from aborting.
-/

set_option maxRecDepth 100000

namespace DeckOCards

/-! ## Outcomes and machine integers -/

/-- Byte order of the target, `std::endian::native`. -/
inductive Endian where
  | little
  | big
  deriving DecidableEq, Repr

/-- How a call ends: it returns a value and leaves a state, it reaches
`std::abort()` in some state, it runs into undefined behaviour, or the model
ran out of fuel before the call ended. -/
inductive Outcome (σ α : Type) where
  | ret (a : α) (s : σ)
  | abort (s : σ)
  | undefinedBehaviour
  | outOfFuel
  deriving DecidableEq, Repr

/-- Conversion of an `int` to `uint64_t` / `std::size_t`. -/
def toU64 (x : Int) : Nat := (x % 2 ^ 64).toNat

/-- Conversion of an unsigned 64-bit value to a 32-bit `int`. -/
def toInt (n : Nat) : Int :=
  if n % 2 ^ 32 < 2 ^ 31 then ((n % 2 ^ 32 : Nat) : Int)
  else ((n % 2 ^ 32 : Nat) : Int) - 2 ^ 32

/-- Largest `int`. -/
def INT_MAX : Int := 2 ^ 31 - 1

/-! ## Suits, values, cards -/

/-- Enumeration `Suit`. -/
inductive Suit where
  | Hearts
  | Spades
  | Diamonds
  | Clubs
  deriving DecidableEq, Repr

/-- Underlying integer of a `Suit`. -/
def Suit.toNat : Suit → Nat
  | .Hearts => 0
  | .Spades => 1
  | .Diamonds => 2
  | .Clubs => 3

def NumSuits : Nat := 4

def NumValues : Nat := 13

def DeckSize : Nat := NumSuits * NumValues

/-- A card is a `uint64_t`. -/
abbrev Card := Nat

def shiftSmaller (e : Endian) (value numBits : Nat) : Nat :=
  match e with
  | .little => value >>> numBits
  | .big => (value <<< numBits) % 2 ^ 64

def shiftLarger (e : Endian) (value numBits : Nat) : Nat :=
  match e with
  | .little => (value <<< numBits) % 2 ^ 64
  | .big => value >>> numBits

def getSuit (e : Endian) (card : Card) : Suit :=
  if card < shiftLarger e 1 (NumValues + NumValues * Suit.Hearts.toNat) then Suit.Hearts
  else if card < shiftLarger e 1 (NumValues + NumValues * Suit.Spades.toNat) then Suit.Spades
  else if card < shiftLarger e 1 (NumValues + NumValues * Suit.Diamonds.toNat) then
    Suit.Diamonds
  else Suit.Clubs

/-- First loop of `getValue`: `while (card >= shiftLarger(1, NumValues)) card =
shiftSmaller(card, NumValues);`. -/
def getValue.normalise (e : Endian) : Nat → Card → Option Card
  | 0, _ => none
  | fuel + 1, card =>
    if card ≥ shiftLarger e 1 NumValues then
      getValue.normalise e fuel (shiftSmaller e card NumValues)
    else some card

/-- Second loop of `getValue`: `while (testCard != card) { testCard =
shiftLarger(testCard, 1); ++ret; }`, where `testCard` and `ret` are `int`. -/
def getValue.count (e : Endian) (card : Card) : Nat → Int → Int → Outcome Unit Int
  | 0, _, _ => .outOfFuel
  | fuel + 1, testCard, ret =>
    if toU64 testCard ≠ card then
      if ret = INT_MAX then .undefinedBehaviour
      else getValue.count e card fuel (toInt (shiftLarger e (toU64 testCard) 1)) (ret + 1)
    else .ret ret ()

/-- The value of a card, as the integer underlying the enumeration `Value`
(`Ace = 0`, ..., `King = 12`). -/
def getValue (e : Endian) (fuel : Nat) (card : Card) : Outcome Unit Int :=
  if card = 0 then .abort ()
  else
    match getValue.normalise e fuel card with
    | none => .outOfFuel
    | some card => getValue.count e card fuel 1 0

/-! ## The deck -/

/-- Data members of `class Deck`. -/
structure Deck where
  deck : Nat
  numCards : Nat
  peekedCards : List Card
  deriving DecidableEq, Repr

namespace Deck

/-- Constructor `Deck()`. -/
def new (e : Endian) : Deck :=
  match e with
  | .little => { deck := 0x000FFFFFFFFFFFFF, numCards := 52, peekedCards := [] }
  | .big => { deck := 0xFFFFFFFFFFFFF000, numCards := 52, peekedCards := [] }

def cardsLeft (d : Deck) : Nat := (d.numCards + d.peekedCards.length) % 2 ^ 64

def redeck (d : Deck) (card : Card) : Deck :=
  { d with numCards := (d.numCards + 1) % 2 ^ 64, deck := d.deck ||| card }

def shuffle (d : Deck) : Deck :=
  d.peekedCards.foldl (fun acc it => acc.redeck it) d

/-- Loop of `getRandomCard`: `for (; rand > 0; card = shiftLarger(card, 1))
if ((card & deck) != 0) --rand;`. -/
def getRandomCard.loop (e : Endian) (deck : Nat) : Nat → Card → Int → Option Card
  | 0, _, _ => none
  | fuel + 1, card, rand =>
    if rand > 0 then
      getRandomCard.loop e deck fuel (shiftLarger e card 1)
        (if card &&& deck ≠ 0 then rand - 1 else rand)
    else some card

/-- The private `getRandomCard`; `r` is what `std::rand()` returns (`LessRandom`
is `false`, so the generator is not reseeded). `rand % numCards` with
`numCards = 0` is undefined behaviour. -/
def getRandomCard (e : Endian) (fuel : Nat) (r : Nat) (d : Deck) : Outcome Deck Card :=
  if d.numCards = 0 then .undefinedBehaviour
  else
    match getRandomCard.loop e d.deck fuel 1 (toInt (r % d.numCards + 1)) with
    | none => .outOfFuel
    | some card =>
      let card := shiftSmaller e card 1
      .ret card { d with deck := d.deck ^^^ card, numCards := (d.numCards - 1) % 2 ^ 64 }

def drawCard (e : Endian) (fuel : Nat) (r : Nat) (d : Deck) : Outcome Deck Card :=
  if d.cardsLeft = 0 then .abort d
  else
    match d.peekedCards with
    | card :: rest => .ret card { d with peekedCards := rest }
    | [] => d.getRandomCard e fuel r

/-- Loop of `peekCards`, `for (int i = peekedCards.size(); i < count; ++i)
peekedCards.emplace_back(getRandomCard());`, run for its `count - i` rounds;
the generator hands out `rs k`, `rs (k + 1)`, ... -/
def peekCards.fill (e : Endian) (fuel : Nat) (rs : Nat → Nat) :
    Nat → Nat → Deck → Outcome Deck Unit
  | 0, _, d => .ret () d
  | rounds + 1, k, d =>
    match d.getRandomCard e fuel (rs k) with
    | .ret card d1 =>
      peekCards.fill e fuel rs rounds (k + 1)
        { d1 with peekedCards := d1.peekedCards ++ [card] }
    | .abort s => .abort s
    | .undefinedBehaviour => .undefinedBehaviour
    | .outOfFuel => .outOfFuel

def peekCards (e : Endian) (fuel : Nat) (rs : Nat → Nat) (count : Int) (d : Deck) :
    Outcome Deck (List Card) :=
  if d.numCards < toU64 count then .abort d
  else
    match peekCards.fill e fuel rs (count - toInt d.peekedCards.length).toNat 0 d with
    | .ret _ d1 =>
      if 0 ≤ count ∧ count.toNat ≤ d1.peekedCards.length then
        .ret (d1.peekedCards.take count.toNat) d1
      else .undefinedBehaviour
    | .abort s => .abort s
    | .undefinedBehaviour => .undefinedBehaviour
    | .outOfFuel => .outOfFuel

/-- Successive calls of `drawCard`, one for every entry of `rs` (the value the
generator would hand out during that call). -/
def drawCards (e : Endian) (fuel : Nat) : List Nat → Deck → Outcome Deck (List Card)
  | [], d => .ret [] d
  | r :: rs, d =>
    match d.drawCard e fuel r with
    | .ret card d1 =>
      match drawCards e fuel rs d1 with
      | .ret cards d2 => .ret (card :: cards) d2
      | other => other
    | .abort s => .abort s
    | .undefinedBehaviour => .undefinedBehaviour
    | .outOfFuel => .outOfFuel

end Deck

/-! ## Vocabulary of the specification -/

/-- Number of set bits of a 64-bit value below position `j`. -/
def cntBelow (m j : Nat) : Nat := (List.range j).countP (fun i => m.testBit i)

/-- Number of set bits of a 64-bit value. -/
def popcount (m : Nat) : Nat := cntBelow m 64

/-- A card with exactly one bit set. -/
def SingleBit (c : Card) : Prop := ∃ i, i < 64 ∧ c = 2 ^ i

instance instDecidableSingleBit (c : Card) : Decidable (SingleBit c) := by
  unfold SingleBit; infer_instance

/-- Bitwise OR of a list of cards. -/
def orAll (cs : List Card) : Nat := cs.foldr (fun c acc => c ||| acc) 0

/-- The data members hold values of their C++ types: 64-bit unsigned integers
and a vector of at most `max_size()` (below `2^60`) elements. -/
def Deck.Representable (d : Deck) : Prop :=
  d.deck < 2 ^ 64 ∧ d.numCards < 2 ^ 64 ∧ d.peekedCards.length < 2 ^ 60 ∧
    ∀ c ∈ d.peekedCards, c < 2 ^ 64

/-- The random pool is consistent: the mask lies within the low 52 bits and
`numCards` is its number of set bits. -/
def Deck.PoolOK (d : Deck) : Prop :=
  d.deck < 2 ^ 52 ∧ d.numCards = popcount d.deck

/-- The peek buffer holds pairwise distinct single-bit cards, with their bit
below position `w`, none of them in the mask. -/
def Deck.PeekOK (w : Nat) (d : Deck) : Prop :=
  d.peekedCards.Nodup ∧ ∀ c ∈ d.peekedCards, ∃ i, i < w ∧ c = 2 ^ i ∧ d.deck.testBit i = false

/-- Well-formed deck: consistent pool, and a peek buffer of distinct cards of
the 52-card deck that are not in the pool. -/
def Deck.WellFormed (d : Deck) : Prop := d.PoolOK ∧ d.PeekOK 52

instance instDecidableRepresentable (d : Deck) : Decidable d.Representable := by
  unfold Deck.Representable; infer_instance

instance instDecidablePoolOK (d : Deck) : Decidable d.PoolOK := by
  unfold Deck.PoolOK; infer_instance

instance instDecidablePeekOK (w : Nat) (d : Deck) : Decidable (d.PeekOK w) := by
  unfold Deck.PeekOK; infer_instance

instance instDecidableWellFormed (d : Deck) : Decidable d.WellFormed := by
  unfold Deck.WellFormed; infer_instance

/-- A call of the public interface, with the generator outputs it may use. -/
inductive Op where
  | drawCard (r : Nat)
  | peekCards (rs : Nat → Nat) (count : Int)
  | shuffle

/-- One call; the returned value is dropped. -/
def Deck.step (e : Endian) (fuel : Nat) (d : Deck) : Op → Outcome Deck Unit
  | .drawCard r =>
    match d.drawCard e fuel r with
    | .ret _ d1 => .ret () d1
    | .abort s => .abort s
    | .undefinedBehaviour => .undefinedBehaviour
    | .outOfFuel => .outOfFuel
  | .peekCards rs count =>
    match d.peekCards e fuel rs count with
    | .ret _ d1 => .ret () d1
    | .abort s => .abort s
    | .undefinedBehaviour => .undefinedBehaviour
    | .outOfFuel => .outOfFuel
  | .shuffle => .ret () d.shuffle

/-- A finite sequence of calls, stopping at the first one that does not return. -/
def Deck.run (e : Endian) (fuel : Nat) : List Op → Deck → Outcome Deck Unit
  | [], d => .ret () d
  | op :: ops, d =>
    match d.step e fuel op with
    | .ret _ d1 => Deck.run e fuel ops d1
    | other => other

/-- The values the `int` variable `testCard` of `getValue` runs through: `1`,
`2`, ..., `2^30`, then `-2^31` (the conversion of `2^31` to `int`), then `0`. -/
def testCardOrbit : List Int :=
  0 :: -(2 ^ 31) :: (List.range 31).map (fun k => (2 : Int) ^ k)

/-- Largest value `std::rand()` hands out. -/
def RAND_MAX : Nat := 2 ^ 31 - 1

/-- Whether `getRandomCard` returns the card `c` when the generator hands out `r`. -/
def Deck.selects (e : Endian) (fuel : Nat) (d : Deck) (c : Card) (r : Nat) : Bool :=
  match d.getRandomCard e fuel r with
  | .ret card _ => decide (card = c)
  | _ => false

/-- Number of generator outputs `r` in `0..RAND_MAX` for which `getRandomCard`
returns the card `c`. -/
def Deck.selectionCount (e : Endian) (fuel : Nat) (d : Deck) (c : Card) : Nat :=
  Nat.count (fun r => d.selects e fuel c r = true) (RAND_MAX + 1)

/-! ## Fuel: more of it never changes a result -/

theorem normalise_mono (e : Endian) (k : Nat) :
    ∀ (n : Nat) (c v : Card), getValue.normalise e n c = some v →
      getValue.normalise e (n + k) c = some v := by
  intro n
  induction n with
  | zero => intro c v h; simp [getValue.normalise] at h
  | succ n ih =>
    intro c v h
    rw [Nat.add_right_comm]
    simp only [getValue.normalise] at h ⊢
    split
    · rename_i hc
      rw [if_pos hc] at h
      exact ih _ _ h
    · rename_i hc
      rw [if_neg hc] at h
      exact h

theorem count_mono (e : Endian) (card : Card) (k : Nat) :
    ∀ (n : Nat) (t r v : Int), getValue.count e card n t r = .ret v () →
      getValue.count e card (n + k) t r = .ret v () := by
  intro n
  induction n with
  | zero => intro t r v h; simp [getValue.count] at h
  | succ n ih =>
    intro t r v h
    rw [Nat.add_right_comm]
    simp only [getValue.count] at h ⊢
    split
    · rename_i hc
      rw [if_pos hc] at h
      split
      · rename_i hr
        rw [if_pos hr] at h
        exact h
      · rename_i hr
        rw [if_neg hr] at h
        exact ih _ _ _ h
    · rename_i hc
      rw [if_neg hc] at h
      exact h

theorem getValue_mono (e : Endian) (n m : Nat) (c : Card) (v : Int) (hnm : n ≤ m)
    (h : getValue e n c = .ret v ()) : getValue e m c = .ret v () := by
  obtain ⟨k, rfl⟩ := Nat.exists_eq_add_of_le hnm
  unfold getValue at h ⊢
  split
  · rename_i hc
    rw [if_pos hc] at h
    exact h
  · rename_i hc
    rw [if_neg hc] at h
    cases hn : getValue.normalise e n c with
    | none => rw [hn] at h; simp at h
    | some c1 =>
      rw [hn] at h
      rw [normalise_mono e k n c c1 hn]
      exact count_mono e c1 k n 1 0 v h

theorem codec_table :
    ∀ i, i < 52 → getValue .little 13 (2 ^ i) = .ret ((i % 13 : Nat) : Int) () ∧
      (getSuit .little (2 ^ i)).toNat = i / 13 := by
  decide

/-! ## Bits -/

theorem two_pow_and_ne_zero (m j : Nat) : 2 ^ j &&& m ≠ 0 ↔ m.testBit j = true := by
  constructor
  · intro h
    by_contra hb
    apply h
    apply Nat.eq_of_testBit_eq
    intro i
    rw [Nat.testBit_and, Nat.testBit_two_pow, Nat.zero_testBit]
    by_cases hji : j = i
    · subst hji; simp [hb]
    · simp [hji]
  · intro hb h
    have := congrArg (fun x => Nat.testBit x j) h
    simp [Nat.testBit_two_pow, hb] at this

theorem cntBelow_succ (m j : Nat) :
    cntBelow m (j + 1) = cntBelow m j + (if m.testBit j = true then 1 else 0) := by
  unfold cntBelow
  rw [List.range_succ, List.countP_append]
  simp [List.countP_cons]

theorem cntBelow_mono (m : Nat) {i j : Nat} (h : i ≤ j) : cntBelow m i ≤ cntBelow m j := by
  induction j with
  | zero =>
    have : i = 0 := by omega
    subst this
    exact le_refl _
  | succ j ih =>
    rcases Nat.eq_or_lt_of_le h with h1 | h1
    · subst h1; exact le_refl _
    · have := ih (by omega)
      rw [cntBelow_succ]
      omega

theorem cntBelow_le (m j : Nat) : cntBelow m j ≤ j := by
  unfold cntBelow
  calc (List.range j).countP (fun i => m.testBit i) ≤ (List.range j).length :=
        List.countP_le_length _
    _ = j := List.length_range j

theorem popcount_le (m : Nat) : popcount m ≤ 64 := cntBelow_le m 64

theorem testBit_lt_of_lt {m n p : Nat} (hm : m < 2 ^ n) (hp : m.testBit p = true) : p < n := by
  by_contra hnp
  have h1 : 2 ^ n ≤ 2 ^ p := Nat.pow_le_pow_right (by decide) (by omega)
  have h2 := Nat.testBit_lt_two_pow (lt_of_lt_of_le hm h1)
  rw [h2] at hp
  exact Bool.noConfusion hp

theorem cntBelow_of_lt {m n : Nat} (hm : m < 2 ^ n) {j : Nat} (hj : n ≤ j) :
    cntBelow m j = cntBelow m n := by
  induction j with
  | zero =>
    have : n = 0 := by omega
    subst this
    rfl
  | succ j ih =>
    rcases Nat.eq_or_lt_of_le hj with h1 | h1
    · subst h1; rfl
    · rw [cntBelow_succ, ih (by omega)]
      have hb : m.testBit j = false := by
        cases hb : m.testBit j with
        | false => rfl
        | true => exact absurd (testBit_lt_of_lt hm hb) (by omega)
      simp [hb]

theorem xor_two_pow_lt {m n p : Nat} (hm : m < 2 ^ n) (hp : m.testBit p = true) :
    m ^^^ 2 ^ p < 2 ^ n :=
  Nat.xor_lt_two_pow hm (Nat.pow_lt_pow_right (by decide) (testBit_lt_of_lt hm hp))

theorem testBit_xor_two_pow (m p i : Nat) :
    (m ^^^ 2 ^ p).testBit i = xor (m.testBit i) (decide (p = i)) := by
  rw [Nat.testBit_xor, Nat.testBit_two_pow]

theorem cntBelow_xor {m p : Nat} (hp : m.testBit p = true) (n : Nat) :
    cntBelow (m ^^^ 2 ^ p) n + (if p < n then 1 else 0) = cntBelow m n := by
  induction n with
  | zero => simp [cntBelow]
  | succ n ih =>
    rw [cntBelow_succ, cntBelow_succ, testBit_xor_two_pow]
    by_cases hpn : p = n
    · subst hpn
      simp [hp] at ih ⊢
      omega
    · by_cases hlt : p < n
      · have h1 : p < n + 1 := by omega
        simp only [hlt, h1, if_true] at ih ⊢
        simp [hpn]
        omega
      · have h1 : ¬ p < n + 1 := by omega
        simp only [hlt, h1, if_false] at ih ⊢
        simp [hpn]
        omega

theorem popcount_xor {m p : Nat} (hp : m.testBit p = true) (h64 : p < 64) :
    popcount (m ^^^ 2 ^ p) + 1 = popcount m := by
  have := cntBelow_xor hp 64
  simpa [popcount, h64] using this

theorem two_pow_or_xor {m p : Nat} (hp : m.testBit p = true) : 2 ^ p ||| (m ^^^ 2 ^ p) = m := by
  apply Nat.eq_of_testBit_eq
  intro i
  rw [Nat.testBit_or, testBit_xor_two_pow, Nat.testBit_two_pow]
  by_cases hpi : p = i
  · subst hpi; simp [hp]
  · simp [hpi]

/-! ## The selection loop of `getRandomCard` -/

theorem shiftLarger_little_two_pow {j : Nat} (hj : j < 63) :
    shiftLarger .little (2 ^ j) 1 = 2 ^ (j + 1) := by
  have h : (2 : Nat) ^ (j + 1) < 2 ^ 64 := Nat.pow_lt_pow_right (by decide) (by omega)
  simp only [shiftLarger, Nat.shiftLeft_eq, pow_one]
  rw [← Nat.pow_succ]
  exact Nat.mod_eq_of_lt h

theorem shiftSmaller_little_two_pow (p : Nat) :
    shiftSmaller .little (2 ^ (p + 1)) 1 = 2 ^ p := by
  simp [shiftSmaller, Nat.shiftRight_eq_div_pow, Nat.pow_succ]

theorem loop_select (m : Nat) :
    ∀ (fuel j k : Nat), 64 ≤ fuel + j → j ≤ 63 → 1 ≤ k → cntBelow m j + k ≤ cntBelow m 63 →
      ∃ p, j ≤ p ∧ p < 63 ∧ m.testBit p = true ∧ cntBelow m p + 1 = cntBelow m j + k ∧
        Deck.getRandomCard.loop .little m fuel (2 ^ j) (k : Int) = some (2 ^ (p + 1)) := by
  intro fuel
  induction fuel with
  | zero => intro j k h1 h2; omega
  | succ fuel ih =>
    intro j k hfuel hj hk hcnt
    have hj63 : j < 63 := by
      rcases Nat.eq_or_lt_of_le hj with h | h
      · subst h; omega
      · exact h
    have hkpos : (k : Int) > 0 := by omega
    simp only [Deck.getRandomCard.loop, if_pos hkpos, shiftLarger_little_two_pow hj63]
    have hsucc := cntBelow_succ m j
    cases hb : m.testBit j with
    | true =>
      have hand : 2 ^ j &&& m ≠ 0 := (two_pow_and_ne_zero m j).2 hb
      rw [if_pos hand]
      rw [hb] at hsucc
      simp only [if_true] at hsucc
      by_cases hk1 : k = 1
      · subst hk1
        refine ⟨j, le_refl _, hj63, hb, rfl, ?_⟩
        obtain ⟨f, rfl⟩ : ∃ f, fuel = f + 1 := ⟨fuel - 1, by omega⟩
        simp [Deck.getRandomCard.loop]
      · obtain ⟨p, hp1, hp2, hp3, hp4, hp5⟩ :=
          ih (j + 1) (k - 1) (by omega) (by omega) (by omega) (by omega)
        refine ⟨p, by omega, hp2, hp3, by omega, ?_⟩
        have hcast : ((k - 1 : Nat) : Int) = (k : Int) - 1 := by omega
        rw [← hcast]
        exact hp5
    | false =>
      have hand : ¬ (2 ^ j &&& m ≠ 0) := by
        rw [two_pow_and_ne_zero, hb]
        exact Bool.noConfusion
      rw [if_neg hand]
      rw [hb] at hsucc
      simp only [Bool.false_eq_true, if_false, Nat.add_zero] at hsucc
      obtain ⟨p, hp1, hp2, hp3, hp4, hp5⟩ :=
        ih (j + 1) k (by omega) (by omega) hk (by omega)
      exact ⟨p, by omega, hp2, hp3, by omega, hp5⟩

theorem toInt_small {n : Nat} (h : n < 2 ^ 31) : toInt n = (n : Int) := by
  have h1 : n % 2 ^ 32 = n := Nat.mod_eq_of_lt (by omega)
  simp only [toInt, h1, if_pos h]

theorem getRandomCard_spec (fuel r : Nat) (d : Deck) (hfuel : 64 ≤ fuel)
    (hdeck : d.deck < 2 ^ 63) (hcnt : d.numCards = popcount d.deck) (hpos : d.numCards ≠ 0) :
    ∃ p, p < 63 ∧ d.deck.testBit p = true ∧ cntBelow d.deck p = r % d.numCards ∧
      d.getRandomCard .little fuel r =
        .ret (2 ^ p) { d with deck := d.deck ^^^ 2 ^ p, numCards := d.numCards - 1 } := by
  have h64 : d.numCards ≤ 64 := hcnt ▸ popcount_le d.deck
  have hpop : popcount d.deck = cntBelow d.deck 63 := cntBelow_of_lt hdeck (by decide)
  have hmod : r % d.numCards < d.numCards := Nat.mod_lt _ (Nat.pos_of_ne_zero hpos)
  have h0 : cntBelow d.deck 0 = 0 := rfl
  obtain ⟨p, _, hp2, hp3, hp4, hp5⟩ :=
    loop_select d.deck fuel 0 (r % d.numCards + 1) (by omega) (by omega) (by omega) (by omega)
  refine ⟨p, hp2, hp3, by omega, ?_⟩
  have hti : toInt (r % d.numCards + 1) = ((r % d.numCards + 1 : Nat) : Int) :=
    toInt_small (by omega)
  have hsub : (d.numCards - 1) % 2 ^ 64 = d.numCards - 1 := Nat.mod_eq_of_lt (by omega)
  simp only [Deck.getRandomCard, if_neg hpos, hti]
  rw [pow_zero] at hp5
  rw [hp5]
  simp only [shiftSmaller_little_two_pow, hsub]

/-! ## Drawing from the pool -/

theorem cntBelow_eq_zero {m : Nat} : ∀ n, cntBelow m n = 0 → ∀ i, i < n → m.testBit i = false := by
  intro n
  induction n with
  | zero => intro _ i hi; omega
  | succ n ih =>
    intro h i hi
    rw [cntBelow_succ] at h
    rcases Nat.eq_or_lt_of_le (Nat.le_of_lt_succ hi) with h1 | h1
    · subst h1
      cases hb : m.testBit i with
      | false => rfl
      | true => rw [hb] at h; simp at h
    · exact ih (by omega) i h1

theorem eq_zero_of_popcount {m : Nat} (hm : m < 2 ^ 64) (h : popcount m = 0) : m = 0 := by
  have h1 : m < 2 ^ 0 := by
    apply Nat.lt_pow_two_of_testBit
    intro i _
    by_cases hi : i < 64
    · exact cntBelow_eq_zero 64 h i hi
    · exact Nat.testBit_lt_two_pow
        (lt_of_lt_of_le hm (Nat.pow_le_pow_right (by decide) (by omega)))
  simpa using h1

theorem orAll_testBit {cs : List Card} {i : Nat} (h : (orAll cs).testBit i = true) :
    ∃ c, c ∈ cs ∧ c.testBit i = true := by
  induction cs with
  | nil => simp [orAll] at h
  | cons c cs ih =>
    have h1 : (c ||| orAll cs).testBit i = true := h
    rw [Nat.testBit_or, Bool.or_eq_true] at h1
    rcases h1 with h1 | h1
    · exact ⟨c, List.mem_cons_self _ _, h1⟩
    · obtain ⟨c1, hc1, hb⟩ := ih h1
      exact ⟨c1, List.mem_cons_of_mem _ hc1, hb⟩

theorem drawCard_pool (fuel r : Nat) (d : Deck) (hfuel : 64 ≤ fuel) (hpool : d.PoolOK)
    (hbuf : d.peekedCards = []) (hpos : d.numCards ≠ 0) :
    ∃ p, p < 52 ∧ d.deck.testBit p = true ∧ cntBelow d.deck p = r % d.numCards ∧
      d.drawCard .little fuel r =
        .ret (2 ^ p) { d with deck := d.deck ^^^ 2 ^ p, numCards := d.numCards - 1 } := by
  obtain ⟨hdeck, hcnt⟩ := hpool
  have h63 : d.deck < 2 ^ 63 := lt_of_lt_of_le hdeck (Nat.pow_le_pow_right (by decide) (by decide))
  obtain ⟨p, _, hp2, hp3, hp4⟩ := getRandomCard_spec fuel r d hfuel h63 hcnt hpos
  refine ⟨p, testBit_lt_of_lt hdeck hp2, hp2, hp3, ?_⟩
  have h64 : d.numCards ≤ 64 := hcnt ▸ popcount_le d.deck
  have hleft : d.cardsLeft ≠ 0 := by
    simp only [Deck.cardsLeft, hbuf, List.length_nil, Nat.add_zero]
    omega
  unfold Deck.drawCard
  rw [if_neg hleft]
  split
  · rename_i heq
    rw [hbuf] at heq
    exact List.noConfusion heq
  · exact hp4

theorem poolOK_after_draw {d : Deck} {p : Nat} (hpool : d.PoolOK) (hp : d.deck.testBit p = true) :
    Deck.PoolOK { d with deck := d.deck ^^^ 2 ^ p, numCards := d.numCards - 1 } := by
  obtain ⟨hdeck, hcnt⟩ := hpool
  have hp52 := testBit_lt_of_lt hdeck hp
  refine ⟨xor_two_pow_lt hdeck hp, ?_⟩
  have := popcount_xor hp (by omega : p < 64)
  show d.numCards - 1 = popcount (d.deck ^^^ 2 ^ p)
  omega

theorem drawCards_pool (fuel : Nat) (hfuel : 64 ≤ fuel) :
    ∀ (rs : List Nat) (d : Deck), d.PoolOK → d.peekedCards = [] → rs.length ≤ d.numCards →
      ∃ cs d1, d.drawCards .little fuel rs = .ret cs d1 ∧ cs.length = rs.length ∧ cs.Nodup ∧
        (∀ c ∈ cs, ∃ i, i < 52 ∧ c = 2 ^ i ∧ d.deck.testBit i = true) ∧
        orAll cs ||| d1.deck = d.deck ∧ d1.numCards + rs.length = d.numCards ∧
        d1.PoolOK ∧ d1.peekedCards = [] := by
  intro rs
  induction rs with
  | nil =>
    intro d hpool hbuf _
    exact ⟨[], d, rfl, rfl, List.nodup_nil, by simp, by simp [orAll], by simp, hpool, hbuf⟩
  | cons r rs ih =>
    intro d hpool hbuf hlen
    have hpos : d.numCards ≠ 0 := by
      simp only [List.length_cons] at hlen
      omega
    obtain ⟨p, hp52, hbit, _, hdraw⟩ := drawCard_pool fuel r d hfuel hpool hbuf hpos
    have hpool1 := poolOK_after_draw hpool hbit
    simp only [List.length_cons] at hlen
    obtain ⟨cs, d1, hrun, hl, hnd, hmem, hor, hnum, hpool2, hbuf2⟩ :=
      ih { d with deck := d.deck ^^^ 2 ^ p, numCards := d.numCards - 1 } hpool1 hbuf
        (by show rs.length ≤ d.numCards - 1; omega)
    refine ⟨2 ^ p :: cs, d1, ?_, by simp [hl], ?_, ?_, ?_, ?_, hpool2, hbuf2⟩
    · simp only [Deck.drawCards, hdraw, hrun]
    · refine List.nodup_cons.2 ⟨?_, hnd⟩
      intro hin
      obtain ⟨i, _, hpi, hbi⟩ := hmem _ hin
      have hip : p = i := Nat.pow_right_injective (le_refl 2) hpi
      subst hip
      have hx : (d.deck ^^^ 2 ^ p).testBit p = true := hbi
      rw [testBit_xor_two_pow, hbit] at hx
      simp at hx
    · intro c hc
      rcases List.mem_cons.1 hc with h | h
      · exact ⟨p, hp52, h, hbit⟩
      · obtain ⟨i, hi, hci, hbi⟩ := hmem c h
        refine ⟨i, hi, hci, ?_⟩
        have hx : (d.deck ^^^ 2 ^ p).testBit i = true := hbi
        rw [testBit_xor_two_pow] at hx
        cases hb : d.deck.testBit i with
        | true => rfl
        | false =>
          rw [hb] at hx
          have hpi : p = i := by simpa using hx
          subst hpi
          rw [hbit] at hb
          exact Bool.noConfusion hb
    · show 2 ^ p ||| orAll cs ||| d1.deck = d.deck
      rw [Nat.lor_assoc, hor]
      exact two_pow_or_xor hbit
    · simp only [List.length_cons]
      have : d1.numCards + rs.length = d.numCards - 1 := hnum
      omega

/-! ## What a returning call tells about the state -/

theorem toU64_of_nonneg {n : Int} (h0 : 0 ≤ n) (h : n < 2 ^ 64) : toU64 n = n.toNat := by
  unfold toU64
  rw [Int.emod_eq_of_lt h0 h]

theorem toInt_ge (n : Nat) : -(2 ^ 31) ≤ toInt n := by
  unfold toInt
  split <;> omega

theorem getRandomCard_ret {e : Endian} {fuel r : Nat} {d d1 : Deck} {c : Card}
    (h : d.getRandomCard e fuel r = .ret c d1) :
    d.numCards ≠ 0 ∧ d1.numCards = (d.numCards - 1) % 2 ^ 64 ∧
      d1.peekedCards = d.peekedCards ∧ d1.deck = d.deck ^^^ c := by
  unfold Deck.getRandomCard at h
  split at h
  · exact Outcome.noConfusion h
  · rename_i hpos
    split at h
    · exact Outcome.noConfusion h
    · injection h with h1 h2
      subst h1 h2
      exact ⟨hpos, rfl, rfl, rfl⟩

theorem getRandomCard_ne_abort (e : Endian) (fuel r : Nat) (d s : Deck) :
    d.getRandomCard e fuel r ≠ .abort s := by
  unfold Deck.getRandomCard
  split
  · exact Outcome.noConfusion
  · split <;> exact Outcome.noConfusion

theorem fill_ret (e : Endian) (fuel : Nat) (rs : Nat → Nat) :
    ∀ (rounds k : Nat) (d d1 : Deck) (u : Unit),
      Deck.peekCards.fill e fuel rs rounds k d = .ret u d1 →
      d1.numCards + rounds ≤ d.numCards ∧ d1.numCards ≤ d.numCards ∧
        ∃ ext, ext.length = rounds ∧ d1.peekedCards = d.peekedCards ++ ext := by
  intro rounds
  induction rounds with
  | zero =>
    intro k d d1 u h
    simp only [Deck.peekCards.fill] at h
    injection h with _ h2
    subst h2
    exact ⟨le_refl _, le_refl _, [], rfl, by simp⟩
  | succ rounds ih =>
    intro k d d1 u h
    simp only [Deck.peekCards.fill] at h
    cases hg : d.getRandomCard e fuel (rs k) with
    | ret c d2 =>
      rw [hg] at h
      obtain ⟨hpos, hnum, hbuf, _⟩ := getRandomCard_ret hg
      obtain ⟨h1, h2, ext, hext, hcat⟩ := ih _ _ _ _ h
      have hle : (d.numCards - 1) % 2 ^ 64 ≤ d.numCards - 1 := Nat.mod_le _ _
      have h1a : d1.numCards + rounds ≤ d2.numCards := h1
      have h2a : d1.numCards ≤ d2.numCards := h2
      refine ⟨by omega, by omega, c :: ext, by simp [hext], ?_⟩
      rw [hcat]
      show (d2.peekedCards ++ [c]) ++ ext = d.peekedCards ++ c :: ext
      rw [hbuf]
      simp
    | abort s => rw [hg] at h; exact Outcome.noConfusion h
    | undefinedBehaviour => rw [hg] at h; exact Outcome.noConfusion h
    | outOfFuel => rw [hg] at h; exact Outcome.noConfusion h

theorem fill_ne_abort (e : Endian) (fuel : Nat) (rs : Nat → Nat) :
    ∀ (rounds k : Nat) (d s : Deck), Deck.peekCards.fill e fuel rs rounds k d ≠ .abort s := by
  intro rounds
  induction rounds with
  | zero => intro k d s; simp [Deck.peekCards.fill]
  | succ rounds ih =>
    intro k d s
    simp only [Deck.peekCards.fill]
    cases hg : d.getRandomCard e fuel (rs k) with
    | ret c d2 => exact ih _ _ _
    | abort s1 => exact absurd hg (getRandomCard_ne_abort e fuel _ d s1)
    | undefinedBehaviour => exact Outcome.noConfusion
    | outOfFuel => exact Outcome.noConfusion

theorem peekCards_ret {e : Endian} {fuel : Nat} {rs : Nat → Nat} {n : Int} {d d1 : Deck}
    {L : List Card} (h : d.peekCards e fuel rs n = .ret L d1) :
    ¬ d.numCards < toU64 n ∧ 0 ≤ n ∧ n.toNat ≤ d1.peekedCards.length ∧
      L = d1.peekedCards.take n.toNat ∧
      Deck.peekCards.fill e fuel rs (n - toInt d.peekedCards.length).toNat 0 d = .ret () d1 := by
  unfold Deck.peekCards at h
  split at h
  · exact Outcome.noConfusion h
  · rename_i hchk
    split at h
    · rename_i u d2 hfill
      split at h
      · rename_i hc
        injection h with h1 h2
        subst h2
        exact ⟨hchk, hc.1, hc.2, h1.symm, hfill⟩
      · exact Outcome.noConfusion h
    · exact Outcome.noConfusion h
    · exact Outcome.noConfusion h
    · exact Outcome.noConfusion h

theorem drawCards_buffer (e : Endian) (fuel : Nat) :
    ∀ (rs : List Nat) (d : Deck), rs.length ≤ d.peekedCards.length →
      d.numCards + d.peekedCards.length < 2 ^ 64 →
      d.drawCards e fuel rs =
        .ret (d.peekedCards.take rs.length) { d with peekedCards := d.peekedCards.drop rs.length } := by
  intro rs
  induction rs with
  | nil => intro d _ _; rfl
  | cons r rs ih =>
    intro d hlen hsum
    obtain ⟨deck, numCards, buf⟩ := d
    cases buf with
    | nil => simp at hlen
    | cons c rest =>
      simp only [List.length_cons] at hlen hsum
      have hleft : Deck.cardsLeft ⟨deck, numCards, c :: rest⟩ ≠ 0 := by
        simp only [Deck.cardsLeft, List.length_cons]
        omega
      have hih := ih ⟨deck, numCards, rest⟩ (by simpa using hlen) (by simp only; omega)
      simp only [Deck.drawCards, Deck.drawCard, if_neg hleft, hih, List.length_cons,
        List.take_succ_cons, List.drop_succ_cons]

/-! ## Peeking on a well-formed deck -/

theorem peekOK_length {w : Nat} {d : Deck} (h : d.PeekOK w) : d.peekedCards.length ≤ w := by
  have hsub : d.peekedCards ⊆ (List.range w).map (fun i => 2 ^ i) := by
    intro c hc
    obtain ⟨i, hi, hci, _⟩ := h.2 c hc
    exact List.mem_map.2 ⟨i, List.mem_range.2 hi, hci.symm⟩
  have := (List.subperm_of_subset h.1 hsub).length_le
  simpa using this

theorem fill_ok (fuel : Nat) (hfuel : 64 ≤ fuel) (w : Nat) (hw : 52 ≤ w) (rs : Nat → Nat) :
    ∀ (rounds k : Nat) (d : Deck), d.PoolOK → d.PeekOK w → rounds ≤ d.numCards →
      ∃ d1, Deck.peekCards.fill .little fuel rs rounds k d = .ret () d1 ∧ d1.PoolOK ∧
        d1.PeekOK w ∧ d1.numCards + rounds = d.numCards ∧
        ∃ ext, ext.length = rounds ∧ d1.peekedCards = d.peekedCards ++ ext := by
  intro rounds
  induction rounds with
  | zero =>
    intro k d hpool hpeek _
    exact ⟨d, rfl, hpool, hpeek, rfl, [], rfl, by simp⟩
  | succ rounds ih =>
    intro k d hpool hpeek hle
    have hpos : d.numCards ≠ 0 := by omega
    have h63 : d.deck < 2 ^ 63 :=
      lt_of_lt_of_le hpool.1 (Nat.pow_le_pow_right (by decide) (by decide))
    obtain ⟨p, _, hbit, _, hdraw⟩ := getRandomCard_spec fuel (rs k) d hfuel h63 hpool.2 hpos
    have hp52 := testBit_lt_of_lt hpool.1 hbit
    have hpool1 : Deck.PoolOK ⟨d.deck ^^^ 2 ^ p, d.numCards - 1, d.peekedCards ++ [2 ^ p]⟩ :=
      poolOK_after_draw hpool hbit
    have hpeek1 : Deck.PeekOK w ⟨d.deck ^^^ 2 ^ p, d.numCards - 1, d.peekedCards ++ [2 ^ p]⟩ := by
      constructor
      · show (d.peekedCards ++ [2 ^ p]).Nodup
        rw [List.nodup_append]
        refine ⟨hpeek.1, List.nodup_singleton _, ?_⟩
        intro c hc hc1
        rw [List.mem_singleton] at hc1
        subst hc1
        obtain ⟨i, _, hpi, hbi⟩ := hpeek.2 _ hc
        have hip : p = i := Nat.pow_right_injective (le_refl 2) hpi
        subst hip
        rw [hbit] at hbi
        exact Bool.noConfusion hbi
      · intro c hc
        have hc1 : c ∈ d.peekedCards ++ [2 ^ p] := hc
        show ∃ i, i < w ∧ c = 2 ^ i ∧ (d.deck ^^^ 2 ^ p).testBit i = false
        rcases List.mem_append.1 hc1 with h | h
        · obtain ⟨i, hi, hci, hbi⟩ := hpeek.2 c h
          refine ⟨i, hi, hci, ?_⟩
          rw [testBit_xor_two_pow, hbi]
          have hpi : p ≠ i := by
            intro hpi
            subst hpi
            rw [hbit] at hbi
            exact Bool.noConfusion hbi
          simp [hpi]
        · rw [List.mem_singleton] at h
          refine ⟨p, by omega, h, ?_⟩
          rw [testBit_xor_two_pow, hbit]
          simp
    obtain ⟨d1, hrun, hp1, hp2, hnum, ext, hext, hcat⟩ :=
      ih (k + 1) ⟨d.deck ^^^ 2 ^ p, d.numCards - 1, d.peekedCards ++ [2 ^ p]⟩ hpool1 hpeek1
        (by show rounds ≤ d.numCards - 1; omega)
    refine ⟨d1, ?_, hp1, hp2, ?_, 2 ^ p :: ext, by simp [hext], ?_⟩
    · simp only [Deck.peekCards.fill, hdraw]
      exact hrun
    · have : d1.numCards + rounds = d.numCards - 1 := hnum
      omega
    · rw [hcat]
      show (d.peekedCards ++ [2 ^ p]) ++ ext = d.peekedCards ++ 2 ^ p :: ext
      simp

/-! ## Claims -/

/-- C1: codec round trip. For every bit index `i < 52` and `c = 2^i`, `getValue c`
returns (no abort, no endless loop) the value `i % 13`, `getSuit c` is the suit
number `i / 13`, and `2^(13 * getSuit c + getValue c) = c`. -/
theorem C1_codec_round_trip (fuel i : Nat) (hfuel : 13 ≤ fuel) (hi : i < 52) :
    ∃ v : Nat, getValue .little fuel (2 ^ i) = .ret (v : Int) () ∧ v = i % 13 ∧
      (getSuit .little (2 ^ i)).toNat = i / 13 ∧
      2 ^ (13 * (getSuit .little (2 ^ i)).toNat + v) = 2 ^ i := by
  obtain ⟨h1, h2⟩ := codec_table i hi
  refine ⟨i % 13, getValue_mono .little 13 fuel _ _ hfuel h1, rfl, h2, ?_⟩
  rw [h2, Nat.div_add_mod]

theorem C1_codec_round_trip_witness :
    ∃ v : Nat, getValue .little 13 (2 ^ 51) = .ret (v : Int) () ∧ v = 51 % 13 ∧
      (getSuit .little (2 ^ 51)).toNat = 51 / 13 ∧
      2 ^ (13 * (getSuit .little (2 ^ 51)).toNat + v) = 2 ^ 51 :=
  C1_codec_round_trip 13 51 (by decide) (by decide)

/-- C2: exhaustive draw. On a freshly constructed deck, whatever the generator
hands out, 52 calls of `drawCard` all return; the 52 cards are pairwise distinct
single-bit cards, their bitwise OR is `0x000FFFFFFFFFFFFF`, every (suit, value)
pair is among them, and the 53rd call aborts. -/
theorem C2_exhaustive_draw (fuel : Nat) (rs : List Nat) (hfuel : 64 ≤ fuel)
    (hrs : rs.length = 52) :
    ∃ cs d1, (Deck.new .little).drawCards .little fuel rs = .ret cs d1 ∧
      cs.length = 52 ∧ cs.Nodup ∧ (∀ c ∈ cs, SingleBit c) ∧
      orAll cs = 0x000FFFFFFFFFFFFF ∧
      (∀ s v, s < 4 → v < 13 → 2 ^ (13 * s + v) ∈ cs) ∧
      ∀ r, d1.drawCard .little fuel r = .abort d1 := by
  have hpool : (Deck.new .little).PoolOK := by decide
  obtain ⟨cs, d1, hrun, hl, hnd, hmem, hor, hnum, hpool1, hbuf1⟩ :=
    drawCards_pool fuel hfuel rs (Deck.new .little) hpool rfl (by rw [hrs]; decide)
  have hnum0 : d1.numCards = 0 := by
    have h52 : (Deck.new .little).numCards = 52 := rfl
    rw [h52, hrs] at hnum
    omega
  have hdeck0 : d1.deck = 0 := by
    apply eq_zero_of_popcount
    · exact lt_of_lt_of_le hpool1.1 (Nat.pow_le_pow_right (by decide) (by decide))
    · rw [← hpool1.2, hnum0]
  have hfull : orAll cs = 0x000FFFFFFFFFFFFF := by
    rw [hdeck0, Nat.or_zero] at hor
    exact hor
  refine ⟨cs, d1, hrun, by rw [hl, hrs], hnd, ?_, hfull, ?_, ?_⟩
  · intro c hc
    obtain ⟨i, hi, hci, _⟩ := hmem c hc
    exact ⟨i, by omega, hci⟩
  · intro s v hs hv
    have hb : (orAll cs).testBit (13 * s + v) = true := by
      rw [hfull]
      have : 13 * s + v < 52 := by omega
      generalize 13 * s + v = j at this
      revert j
      decide
    obtain ⟨c, hc, hcb⟩ := orAll_testBit hb
    obtain ⟨i, _, hci, _⟩ := hmem c hc
    rw [hci, Nat.testBit_two_pow] at hcb
    have : i = 13 * s + v := by simpa using hcb
    rw [← this, ← hci]
    exact hc
  · intro r
    have hleft : d1.cardsLeft = 0 := by simp [Deck.cardsLeft, hnum0, hbuf1]
    simp only [Deck.drawCard, if_pos hleft]

theorem C2_exhaustive_draw_witness :
    ∃ cs d1, (Deck.new .little).drawCards .little 64 (List.replicate 52 7) = .ret cs d1 ∧
      cs.length = 52 ∧ cs.Nodup ∧ (∀ c ∈ cs, SingleBit c) ∧
      orAll cs = 0x000FFFFFFFFFFFFF ∧
      (∀ s v, s < 4 → v < 13 → 2 ^ (13 * s + v) ∈ cs) ∧
      ∀ r, d1.drawCard .little 64 r = .abort d1 :=
  C2_exhaustive_draw 64 (List.replicate 52 7) (by decide) (by decide)

/-- C3: peek then draw is FIFO. On a deck with `numCards = popcount deck`, if
`peekCards n` returns the list `L` (which it only does for `0 ≤ n ≤ numCards`),
then the next `n` calls of `drawCard` return `L[0]`, ..., `L[n-1]` in that
order, whatever the generator hands out, and they leave `deck` and `numCards`
as they are. -/
theorem C3_peek_then_draw_fifo (e : Endian) (fuel : Nat) (rs : Nat → Nat) (rs1 : List Nat)
    (d d1 : Deck) (n : Int) (L : List Card)
    (hrep : d.Representable) (hwf : d.numCards = popcount d.deck)
    (hpeek : d.peekCards e fuel rs n = .ret L d1) (hrs1 : rs1.length = n.toNat) :
    d1.drawCards e fuel rs1 =
      .ret L { d1 with peekedCards := d1.peekedCards.drop n.toNat } := by
  obtain ⟨_, _, hlen, hL, hfill⟩ := peekCards_ret hpeek
  obtain ⟨_, hnum, ext, hext, hcat⟩ := fill_ret e fuel rs _ _ _ _ _ hfill
  have h64 : d.numCards ≤ 64 := hwf ▸ popcount_le d.deck
  have hti := toInt_ge d.peekedCards.length
  have hd1len : d1.peekedCards.length = d.peekedCards.length + ext.length := by
    rw [hcat, List.length_append]
  have hrep3 : d.peekedCards.length < 2 ^ 60 := hrep.2.2.1
  have hsum : d1.numCards + d1.peekedCards.length < 2 ^ 64 := by
    rw [hd1len, hext]
    omega
  have := drawCards_buffer e fuel rs1 d1 (by omega) hsum
  rw [this, hrs1, ← hL]

theorem C3_peek_then_draw_fifo_witness :
    (Deck.new .little).Representable ∧
      (Deck.new .little).peekCards .little 64 (fun _ => 0) 3 =
        .ret [1, 2, 4] ⟨0x000FFFFFFFFFFFF8, 49, [1, 2, 4]⟩ ∧
      Deck.drawCards .little 64 [5, 6, 7] ⟨0x000FFFFFFFFFFFF8, 49, [1, 2, 4]⟩ =
        .ret [1, 2, 4] ⟨0x000FFFFFFFFFFFF8, 49, []⟩ :=
  ⟨by decide, by decide,
    C3_peek_then_draw_fifo .little 64 (fun _ => 0) [5, 6, 7] (Deck.new .little)
      ⟨0x000FFFFFFFFFFFF8, 49, [1, 2, 4]⟩ 3 [1, 2, 4] (by decide) (by decide) (by decide)
      (by decide)⟩

/-- C4: `peekCards` does not consume cards. On a deck whose mask lies in the low
52 bits, with `numCards = popcount deck` and a peek buffer of pairwise distinct
single-bit cards that are not in the mask, `peekCards n` with
`0 ≤ n ≤ numCards` returns exactly `n` pairwise distinct single-bit cards and
leaves `cardsLeft` as it was. -/
theorem C4_peek_keeps_cardsLeft (fuel : Nat) (rs : Nat → Nat) (d : Deck) (n : Int)
    (hfuel : 64 ≤ fuel) (hpool : d.PoolOK) (hpeek : d.PeekOK 64)
    (h0 : 0 ≤ n) (hn : n ≤ d.numCards) :
    ∃ L d1, d.peekCards .little fuel rs n = .ret L d1 ∧ (L.length : Int) = n ∧ L.Nodup ∧
      (∀ c ∈ L, SingleBit c) ∧ d1.cardsLeft = d.cardsLeft := by
  have h64 : d.numCards ≤ 64 := hpool.2 ▸ popcount_le d.deck
  have hlen := peekOK_length hpeek
  have hti : toInt d.peekedCards.length = (d.peekedCards.length : Int) := toInt_small (by omega)
  have hu : toU64 n = n.toNat := toU64_of_nonneg h0 (by omega)
  have hchk : ¬ d.numCards < toU64 n := by rw [hu]; omega
  obtain ⟨d1, hfill, _, hpeek1, hnum, ext, hext, hcat⟩ :=
    fill_ok fuel hfuel 64 (by decide) rs (n - toInt d.peekedCards.length).toNat 0 d hpool hpeek
      (by rw [hti]; omega)
  have hd1len : d1.peekedCards.length = d.peekedCards.length + ext.length := by
    rw [hcat, List.length_append]
  have hc : 0 ≤ n ∧ n.toNat ≤ d1.peekedCards.length := by
    refine ⟨h0, ?_⟩
    rw [hd1len, hext, hti]
    omega
  refine ⟨d1.peekedCards.take n.toNat, d1, ?_, ?_, ?_, ?_, ?_⟩
  · simp only [Deck.peekCards, if_neg hchk, hfill, if_pos hc]
  · rw [List.length_take]
    omega
  · exact hpeek1.1.sublist (List.take_sublist _ _)
  · intro c hc1
    obtain ⟨i, hi, hci, _⟩ := hpeek1.2 c (List.mem_of_mem_take hc1)
    exact ⟨i, hi, hci⟩
  · simp only [Deck.cardsLeft]
    rw [hd1len, hext, hti]
    rw [hti] at hnum
    have : d1.numCards + (d.peekedCards.length + (n - (d.peekedCards.length : Int)).toNat) =
        d.numCards + d.peekedCards.length := by omega
    rw [this]

theorem C4_peek_keeps_cardsLeft_witness :
    (Deck.new .little).cardsLeft = 52 ∧
      ∃ L d1, (Deck.new .little).peekCards .little 64 (fun k => 3 * k) 5 = .ret L d1 ∧
        (L.length : Int) = 5 ∧ L.Nodup ∧ (∀ c ∈ L, SingleBit c) ∧
        d1.cardsLeft = (Deck.new .little).cardsLeft :=
  ⟨by decide,
    C4_peek_keeps_cardsLeft 64 (fun k => 3 * k) (Deck.new .little) 5 (by decide) (by decide)
      (by decide) (by decide) (by decide)⟩

/-- C5, counterexample: on a fresh deck `peekCards 30` returns 30 cards and
leaves 22 cards in the pool; the same call once more aborts, because `22 < 30`. -/
theorem C5_counterexample :
    (Deck.new .little).WellFormed ∧
      ∃ L d1, (Deck.new .little).peekCards .little 64 (fun _ => 0) 30 = .ret L d1 ∧
        d1.numCards = 22 ∧
        d1.peekCards .little 64 (fun _ => 0) 30 = .abort d1 := by
  refine ⟨by decide, _, _, rfl, rfl, rfl⟩

/-- C5, amended: on a well-formed deck, after `peekCards n` has returned `L`, a
following `peekCards m` with `0 ≤ m ≤ n` returns the first `m` entries of `L`
and leaves the whole state as it is, provided `m` is at most the `numCards`
left after the first call; when `m` exceeds it, the call aborts. -/
theorem C5_peek_again (e : Endian) (fuel : Nat) (rs rs1 : Nat → Nat) (d d1 : Deck)
    (n m : Int) (L : List Card) (hwf : d.WellFormed)
    (hpeek : d.peekCards e fuel rs n = .ret L d1) (h0 : 0 ≤ m) (hmn : m ≤ n) :
    (m ≤ d1.numCards → d1.peekCards e fuel rs1 m = .ret (L.take m.toNat) d1) ∧
      ((d1.numCards : Int) < m → d1.peekCards e fuel rs1 m = .abort d1) := by
  obtain ⟨_, hn0, hlen, hL, hfill⟩ := peekCards_ret hpeek
  obtain ⟨hrounds, hnum, ext, hext, hcat⟩ := fill_ret e fuel rs _ _ _ _ _ hfill
  have h64 : d.numCards ≤ 64 := hwf.1.2 ▸ popcount_le d.deck
  have hdlen := peekOK_length hwf.2
  have hti : toInt d.peekedCards.length = (d.peekedCards.length : Int) := toInt_small (by omega)
  rw [hti] at hrounds
  have hd1len : d1.peekedCards.length = d.peekedCards.length + ext.length := by
    rw [hcat, List.length_append]
  have hti1 : toInt d1.peekedCards.length = (d1.peekedCards.length : Int) :=
    toInt_small (by rw [hd1len, hext, hti]; omega)
  have hu : toU64 m = m.toNat := toU64_of_nonneg h0 (by omega)
  constructor
  · intro hm
    have hchk : ¬ d1.numCards < toU64 m := by rw [hu]; omega
    have hz : (m - toInt d1.peekedCards.length).toNat = 0 := by rw [hti1]; omega
    have hc : 0 ≤ m ∧ m.toNat ≤ d1.peekedCards.length := ⟨h0, by omega⟩
    simp only [Deck.peekCards, if_neg hchk, hz, Deck.peekCards.fill, if_pos hc]
    rw [hL, List.take_take, Nat.min_eq_left (by omega)]
  · intro hm
    have hchk : d1.numCards < toU64 m := by rw [hu]; omega
    simp only [Deck.peekCards, if_pos hchk]

theorem C5_peek_again_witness :
    (Deck.new .little).WellFormed ∧
      (Deck.new .little).peekCards .little 64 (fun _ => 0) 5 =
        .ret [1, 2, 4, 8, 16] ⟨0x000FFFFFFFFFFFE0, 47, [1, 2, 4, 8, 16]⟩ ∧
      Deck.peekCards .little 64 (fun _ => 9) 3 ⟨0x000FFFFFFFFFFFE0, 47, [1, 2, 4, 8, 16]⟩ =
        .ret [1, 2, 4] ⟨0x000FFFFFFFFFFFE0, 47, [1, 2, 4, 8, 16]⟩ :=
  ⟨by decide, by decide,
    (C5_peek_again .little 64 (fun _ => 0) (fun _ => 9) (Deck.new .little)
      ⟨0x000FFFFFFFFFFFE0, 47, [1, 2, 4, 8, 16]⟩ 5 3 [1, 2, 4, 8, 16] (by decide) (by decide)
      (by decide) (by decide)).1 (by decide)⟩

/-- C6: `shuffle` on the deck left by `peekCards 1` on a fresh deck (generator
output 0), which is well-formed with peek buffer `[1]`: the mask and `numCards`
take the peeked card back, but the peek buffer is still `[1]`, not empty, and
`cardsLeft` goes from 52 to 53. -/
theorem C6_shuffle_keeps_peek_buffer :
    (Deck.new .little).peekCards .little 64 (fun _ => 0) 1 =
        .ret [1] ⟨0x000FFFFFFFFFFFFE, 51, [1]⟩ ∧
      Deck.WellFormed ⟨0x000FFFFFFFFFFFFE, 51, [1]⟩ ∧
      Deck.shuffle ⟨0x000FFFFFFFFFFFFE, 51, [1]⟩ = ⟨0x000FFFFFFFFFFFFF, 52, [1]⟩ ∧
      Deck.cardsLeft ⟨0x000FFFFFFFFFFFFE, 51, [1]⟩ = 52 ∧
      (Deck.shuffle ⟨0x000FFFFFFFFFFFFE, 51, [1]⟩).cardsLeft = 53 := by
  decide

/-- C7: after `peekCards 2` on a fresh deck (generator output 0 twice) has
shown the cards `1` and `2`, and `shuffle`, `numCards` is 52 again, but the next
`drawCard` returns the card `1` for every generator output, never the card `2`:
the peek buffer still holds both cards. -/
theorem C7_draw_after_shuffle_is_first_peeked :
    (Deck.new .little).peekCards .little 64 (fun _ => 0) 2 =
        .ret [1, 2] ⟨0x000FFFFFFFFFFFFC, 50, [1, 2]⟩ ∧
      Deck.shuffle ⟨0x000FFFFFFFFFFFFC, 50, [1, 2]⟩ = ⟨0x000FFFFFFFFFFFFF, 52, [1, 2]⟩ ∧
      ∀ fuel r, Deck.drawCard .little fuel r ⟨0x000FFFFFFFFFFFFF, 52, [1, 2]⟩ =
        .ret 1 ⟨0x000FFFFFFFFFFFFF, 52, [2]⟩ := by
  refine ⟨by decide, by decide, ?_⟩
  intro fuel r
  rfl

/-- C8: the calls `peekCards 1` (generator output 0), `shuffle`, `shuffle` on a
fresh deck all return and leave `numCards = 53` with a full mask of 52 bits and
one card in the peek buffer: `cardsLeft` is 54, while `popcount deck` plus the
length of the peek buffer is 53. -/
theorem C8_count_invariant_broken_by_shuffle :
    Deck.run .little 64 [.peekCards (fun _ => 0) 1, .shuffle, .shuffle] (Deck.new .little) =
        .ret () ⟨0x000FFFFFFFFFFFFF, 53, [1]⟩ ∧
      Deck.cardsLeft ⟨0x000FFFFFFFFFFFFF, 53, [1]⟩ = 54 ∧
      popcount 0x000FFFFFFFFFFFFF + [(1 : Card)].length = 53 := by
  decide

/-- C9, counterexample: two decks with `numCards = popcount deck` and
`cardsLeft > 0` on which `drawCard` returns a card that is not a single bit.
With bit 63 alone in the mask the card returned is `0` (the shift past bit 63
wraps to 0); with the value `3` in the peek buffer the card returned is `3`. -/
theorem C9_counterexample :
    (Deck.mk (2 ^ 63) 1 []).numCards = popcount (Deck.mk (2 ^ 63) 1 []).deck ∧
      Deck.cardsLeft (Deck.mk (2 ^ 63) 1 []) = 1 ∧
      Deck.drawCard .little 65 0 (Deck.mk (2 ^ 63) 1 []) = .ret 0 (Deck.mk (2 ^ 63) 0 []) ∧
      ¬ SingleBit 0 ∧
      (Deck.mk 0 0 [3]).numCards = popcount (Deck.mk 0 0 [3]).deck ∧
      Deck.cardsLeft (Deck.mk 0 0 [3]) = 1 ∧
      Deck.drawCard .little 65 0 (Deck.mk 0 0 [3]) = .ret 3 (Deck.mk 0 0 []) ∧
      ¬ SingleBit 3 := by
  decide

/-- C9, amended: on a deck with `numCards = popcount deck`, bit 63 of the mask
clear and only single-bit cards in the peek buffer, for every generator
output, `drawCard` aborts if and only if `cardsLeft` is 0; when `cardsLeft` is
positive it returns a single-bit card and `cardsLeft` goes down by exactly 1. -/
theorem C9_drawCard_aborts_iff_empty (fuel r : Nat) (d : Deck) (hfuel : 64 ≤ fuel)
    (hwf : d.numCards = popcount d.deck) (hdeck : d.deck < 2 ^ 63)
    (hbuf : ∀ c ∈ d.peekedCards, SingleBit c) :
    ((∃ s, d.drawCard .little fuel r = .abort s) ↔ d.cardsLeft = 0) ∧
      (0 < d.cardsLeft → ∃ c d1, d.drawCard .little fuel r = .ret c d1 ∧ SingleBit c ∧
        d1.cardsLeft + 1 = d.cardsLeft) := by
  have hret : 0 < d.cardsLeft → ∃ c d1, d.drawCard .little fuel r = .ret c d1 ∧ SingleBit c ∧
      d1.cardsLeft + 1 = d.cardsLeft := by
    intro hpos
    have hleft : d.cardsLeft ≠ 0 := by omega
    obtain ⟨deck, numCards, buf⟩ := d
    cases buf with
    | cons c rest =>
      refine ⟨c, ⟨deck, numCards, rest⟩, ?_, hbuf c (List.mem_cons_self _ _), ?_⟩
      · simp only [Deck.drawCard, if_neg hleft]
      · simp only [Deck.cardsLeft, List.length_cons] at hleft ⊢
        omega
    | nil =>
      have h64 : numCards ≤ 64 := by
        have := popcount_le deck
        have h : numCards = popcount deck := hwf
        omega
      have hne : numCards ≠ 0 := by
        simp only [Deck.cardsLeft, List.length_nil, Nat.add_zero] at hleft
        omega
      obtain ⟨p, hp, _, _, hdraw⟩ :=
        getRandomCard_spec fuel r ⟨deck, numCards, []⟩ hfuel hdeck hwf hne
      refine ⟨2 ^ p, ⟨deck ^^^ 2 ^ p, numCards - 1, []⟩, ?_, ⟨p, by omega, rfl⟩, ?_⟩
      · simp only [Deck.drawCard, if_neg hleft]
        exact hdraw
      · simp only [Deck.cardsLeft, List.length_nil, Nat.add_zero]
        omega
  refine ⟨⟨?_, ?_⟩, hret⟩
  · rintro ⟨s, hs⟩
    by_contra hne
    obtain ⟨c, d1, hcd, _⟩ := hret (Nat.pos_of_ne_zero hne)
    rw [hcd] at hs
    exact Outcome.noConfusion hs
  · intro h0
    exact ⟨d, by simp only [Deck.drawCard, if_pos h0]⟩

theorem C9_drawCard_aborts_iff_empty_witness :
    Deck.cardsLeft ⟨0x000FFFFFFFFFFFF8, 49, []⟩ = 49 ∧
      ∃ c d1, Deck.drawCard .little 64 11 ⟨0x000FFFFFFFFFFFF8, 49, []⟩ = .ret c d1 ∧
        SingleBit c ∧ d1.cardsLeft + 1 = Deck.cardsLeft ⟨0x000FFFFFFFFFFFF8, 49, []⟩ :=
  ⟨by decide,
    (C9_drawCard_aborts_iff_empty 64 11 ⟨0x000FFFFFFFFFFFF8, 49, []⟩ (by decide) (by decide)
      (by decide) (by decide)).2 (by decide)⟩

/-- C10: the bounds check of `peekCards` looks at the random pool only. For
every deck and every count `n ≥ 0` (an `int`), `peekCards n` aborts if and only
if `numCards < n`, however many cards the peek buffer holds, and it aborts in
the state it was called in. -/
theorem C10_peekCards_aborts_iff (e : Endian) (fuel : Nat) (rs : Nat → Nat) (d : Deck)
    (n : Int) (h0 : 0 ≤ n) (hint : n < 2 ^ 31) :
    ((∃ s, d.peekCards e fuel rs n = .abort s) ↔ (d.numCards : Int) < n) ∧
      ∀ s, d.peekCards e fuel rs n = .abort s → s = d := by
  have hu : toU64 n = n.toNat := toU64_of_nonneg h0 (by omega)
  have key : ∀ s, d.peekCards e fuel rs n = .abort s → s = d ∧ (d.numCards : Int) < n := by
    intro s hs
    unfold Deck.peekCards at hs
    split at hs
    · rename_i hchk
      injection hs with hs
      rw [hu] at hchk
      exact ⟨hs.symm, by omega⟩
    · split at hs
      · split at hs <;> exact Outcome.noConfusion hs
      · rename_i s1 hfill
        exact absurd hfill (fill_ne_abort e fuel rs _ _ _ _)
      · exact Outcome.noConfusion hs
      · exact Outcome.noConfusion hs
  refine ⟨⟨?_, ?_⟩, fun s hs => (key s hs).1⟩
  · rintro ⟨s, hs⟩
    exact (key s hs).2
  · intro hlt
    have hchk : d.numCards < toU64 n := by rw [hu]; omega
    exact ⟨d, by simp only [Deck.peekCards, if_pos hchk]⟩

theorem C10_peekCards_aborts_iff_witness :
    ∃ s, Deck.peekCards .little 64 (fun _ => 0) 25
      ⟨0x000FFFFFC0000000, 22, (List.range 30).map (fun i => 2 ^ i)⟩ = .abort s :=
  (C10_peekCards_aborts_iff .little 64 (fun _ => 0)
    ⟨0x000FFFFFC0000000, 22, (List.range 30).map (fun i => 2 ^ i)⟩ 25 (by decide)
    (by decide)).1.2 (by decide)

/-! ## Putting a card back -/

theorem or_two_pow_xor {m i : Nat} (hb : m.testBit i = false) : (m ||| 2 ^ i) ^^^ 2 ^ i = m := by
  apply Nat.eq_of_testBit_eq
  intro j
  rw [testBit_xor_two_pow, Nat.testBit_or, Nat.testBit_two_pow]
  by_cases hij : i = j
  · subst hij; simp [hb]
  · simp [hij]

theorem or_two_pow_of_testBit {m i : Nat} (hb : m.testBit i = true) : m ||| 2 ^ i = m := by
  apply Nat.eq_of_testBit_eq
  intro j
  rw [Nat.testBit_or, Nat.testBit_two_pow]
  by_cases hij : i = j
  · subst hij; simp [hb]
  · simp [hij]

theorem popcount_or_two_pow {m i : Nat} (hb : m.testBit i = false) (hi : i < 64) :
    popcount (m ||| 2 ^ i) = popcount m + 1 := by
  have hset : (m ||| 2 ^ i).testBit i = true := by
    rw [Nat.testBit_or, Nat.testBit_two_pow]
    simp
  have := popcount_xor hset hi
  rw [or_two_pow_xor hb] at this
  omega

/-- C11: effect and frame of `redeck`. For every deck and every card value `c`,
`redeck c` sets `deck := deck | c`, increments `numCards` (a `size_t`, so the
sum is taken modulo `2^64` and is `numCards + 1` whenever that fits) and leaves
the peek buffer alone. Hence, from `numCards = popcount deck`: for a single bit
`c` not in the mask the equality still holds afterwards, and for a single bit
already in the mask the result has `numCards = popcount deck + 1`. -/
theorem C11_redeck_effect (d : Deck) (c : Card) :
    (d.redeck c).deck = d.deck ||| c ∧
      (d.redeck c).numCards = (d.numCards + 1) % 2 ^ 64 ∧
      (d.numCards + 1 < 2 ^ 64 → (d.redeck c).numCards = d.numCards + 1) ∧
      (d.redeck c).peekedCards = d.peekedCards ∧
      (∀ i, i < 64 → c = 2 ^ i → d.numCards = popcount d.deck → d.deck.testBit i = false →
        (d.redeck c).numCards = popcount (d.redeck c).deck) ∧
      (∀ i, i < 64 → c = 2 ^ i → d.numCards = popcount d.deck → d.deck.testBit i = true →
        (d.redeck c).numCards = popcount (d.redeck c).deck + 1) := by
  refine ⟨rfl, rfl, fun h => Nat.mod_eq_of_lt h, rfl, ?_, ?_⟩
  · intro i hi hc hwf hb
    have h64 := popcount_le d.deck
    show (d.numCards + 1) % 2 ^ 64 = popcount (d.deck ||| c)
    rw [hc, popcount_or_two_pow hb hi, hwf]
    exact Nat.mod_eq_of_lt (by omega)
  · intro i hi hc hwf hb
    have h64 := popcount_le d.deck
    show (d.numCards + 1) % 2 ^ 64 = popcount (d.deck ||| c) + 1
    rw [hc, or_two_pow_of_testBit hb, hwf]
    exact Nat.mod_eq_of_lt (by omega)

theorem C11_redeck_effect_witness :
    Deck.redeck ⟨0x000FFFFFFFFFFFFE, 51, [4]⟩ 1 = ⟨0x000FFFFFFFFFFFFF, 52, [4]⟩ ∧
      (Deck.redeck ⟨0x000FFFFFFFFFFFFE, 51, [4]⟩ 1).numCards =
        popcount (Deck.redeck ⟨0x000FFFFFFFFFFFFE, 51, [4]⟩ 1).deck ∧
      (Deck.redeck ⟨0x000FFFFFFFFFFFFE, 51, [4]⟩ 2).numCards =
        popcount (Deck.redeck ⟨0x000FFFFFFFFFFFFE, 51, [4]⟩ 2).deck + 1 :=
  ⟨by decide,
    (C11_redeck_effect ⟨0x000FFFFFFFFFFFFE, 51, [4]⟩ 1).2.2.2.2.1 0 (by decide) (by decide)
      (by decide) (by decide),
    (C11_redeck_effect ⟨0x000FFFFFFFFFFFFE, 51, [4]⟩ 2).2.2.2.2.2 1 (by decide) (by decide)
      (by decide) (by decide)⟩

/-- C13: initial state of the little-endian build. A freshly constructed deck
has `deck = 0x000FFFFFFFFFFFFF`, that is exactly the bits 0..51 set and the bits
52..63 clear, `numCards = 52 = popcount deck`, an empty peek buffer and
`cardsLeft = 52`. -/
theorem C13_initial_state :
    (Deck.new .little).deck = 0x000FFFFFFFFFFFFF ∧
      (∀ i, i < 64 → (Deck.new .little).deck.testBit i = decide (i < 52)) ∧
      (Deck.new .little).numCards = 52 ∧
      popcount (Deck.new .little).deck = 52 ∧
      (Deck.new .little).peekedCards = [] ∧
      (Deck.new .little).cardsLeft = 52 := by
  decide

/-- C19: negative counts are rejected. For every deck with `numCards ≤ 52` and
every negative `int` count, `peekCards count` aborts in the state it was called
in: the comparison `numCards < count` sees `count + 2^64`, which exceeds
`numCards`, so neither the loop nor `begin() + count` is reached. -/
theorem C19_negative_count_aborts (e : Endian) (fuel : Nat) (rs : Nat → Nat) (d : Deck)
    (n : Int) (hnum : d.numCards ≤ 52) (hneg : n < 0) (hint : -(2 ^ 31) ≤ n) :
    toU64 n = (n + 2 ^ 64).toNat ∧ d.numCards < toU64 n ∧
      d.peekCards e fuel rs n = .abort d := by
  have hu : toU64 n = (n + 2 ^ 64).toNat := by
    unfold toU64
    have : n % 2 ^ 64 = n + 2 ^ 64 := by omega
    rw [this]
  have hlt : d.numCards < toU64 n := by
    rw [hu]
    omega
  exact ⟨hu, hlt, by simp only [Deck.peekCards, if_pos hlt]⟩

theorem C19_negative_count_aborts_witness :
    toU64 (-1) = ((-1 : Int) + 2 ^ 64).toNat ∧ (Deck.new .little).numCards < toU64 (-1) ∧
      (Deck.new .little).peekCards .little 64 (fun _ => 0) (-1) = .abort (Deck.new .little) :=
  C19_negative_count_aborts .little 64 (fun _ => 0) (Deck.new .little) (-1) (by decide)
    (by decide) (by decide)

/-! ## Selection, preservation of well-formedness, draining the deck -/

/-- C15: the random draw selects the k-th set bit. On a deck with
`1 ≤ numCards = popcount deck` and the mask below `2^63`, for every generator
output `r`, `getRandomCard` returns the single-bit card `2^p`, where bit `p` of
the mask is set and exactly `k - 1` set bits lie below it, `k = r % numCards + 1`;
afterwards the mask is the old one with exactly bit `p` cleared, `numCards` is
one less and the peek buffer is unchanged. -/
theorem C15_selects_kth_set_bit (fuel r : Nat) (d : Deck) (hfuel : 64 ≤ fuel)
    (hpos : 1 ≤ d.numCards) (hcnt : d.numCards = popcount d.deck) (hdeck : d.deck < 2 ^ 63) :
    ∃ p, p < 63 ∧ d.deck.testBit p = true ∧ cntBelow d.deck p + 1 = r % d.numCards + 1 ∧
      d.getRandomCard .little fuel r =
        .ret (2 ^ p) ⟨d.deck ^^^ 2 ^ p, d.numCards - 1, d.peekedCards⟩ ∧
      ∀ i, (d.deck ^^^ 2 ^ p).testBit i = (d.deck.testBit i && decide (i ≠ p)) := by
  obtain ⟨p, hp, hbit, hk, hret⟩ := getRandomCard_spec fuel r d hfuel hdeck hcnt (by omega)
  refine ⟨p, hp, hbit, by omega, hret, ?_⟩
  intro i
  rw [testBit_xor_two_pow]
  by_cases hpi : p = i
  · subst hpi; simp [hbit]
  · have hip : i ≠ p := fun h => hpi h.symm
    simp [hpi, hip]

theorem C15_selects_kth_set_bit_witness :
    ∃ p, p < 63 ∧ Nat.testBit 0x000FFFFFFFFFFF0A p = true ∧
      cntBelow 0x000FFFFFFFFFFF0A p + 1 = 100 % 46 + 1 ∧
      Deck.getRandomCard .little 64 100 ⟨0x000FFFFFFFFFFF0A, 46, [1]⟩ =
        .ret (2 ^ p) ⟨0x000FFFFFFFFFFF0A ^^^ 2 ^ p, 46 - 1, [1]⟩ ∧
      ∀ i, (0x000FFFFFFFFFFF0A ^^^ 2 ^ p).testBit i =
        (Nat.testBit 0x000FFFFFFFFFFF0A i && decide (i ≠ p)) :=
  C15_selects_kth_set_bit 64 100 ⟨0x000FFFFFFFFFFF0A, 46, [1]⟩ (by decide) (by decide)
    (by decide) (by decide)

theorem peekCards_ok (fuel : Nat) (hfuel : 64 ≤ fuel) (rs : Nat → Nat) (d : Deck) (n : Int)
    (hwf : d.WellFormed) (h0 : 0 ≤ n) (hn : n ≤ d.numCards) :
    ∃ d1, d.peekCards .little fuel rs n = .ret (d1.peekedCards.take n.toNat) d1 ∧
      d1.WellFormed := by
  have h64 : d.numCards ≤ 64 := hwf.1.2 ▸ popcount_le d.deck
  have hlen := peekOK_length hwf.2
  have hti : toInt d.peekedCards.length = (d.peekedCards.length : Int) := toInt_small (by omega)
  have hu : toU64 n = n.toNat := toU64_of_nonneg h0 (by omega)
  have hchk : ¬ d.numCards < toU64 n := by rw [hu]; omega
  obtain ⟨d1, hfill, hpool1, hpeek1, _, ext, hext, hcat⟩ :=
    fill_ok fuel hfuel 52 (le_refl _) rs (n - toInt d.peekedCards.length).toNat 0 d hwf.1 hwf.2
      (by rw [hti]; omega)
  have hd1len : d1.peekedCards.length = d.peekedCards.length + ext.length := by
    rw [hcat, List.length_append]
  have hc : 0 ≤ n ∧ n.toNat ≤ d1.peekedCards.length := by
    refine ⟨h0, ?_⟩
    rw [hd1len, hext, hti]
    omega
  exact ⟨d1, by simp only [Deck.peekCards, if_neg hchk, hfill, if_pos hc], hpool1, hpeek1⟩

/-- C17: well-formedness is preserved by drawing and peeking. On a well-formed
deck (mask within the low 52 bits, `numCards = popcount deck`, peek buffer of
pairwise distinct single-bit cards below `2^52` that are not in the mask), for
all generator outputs, `drawCard` either aborts or returns and leaves a
well-formed deck, and so does `peekCards n` for every `int` count `n`. -/
theorem C17_wellFormed_preserved (fuel r : Nat) (rs : Nat → Nat) (d : Deck) (n : Int)
    (hfuel : 64 ≤ fuel) (hwf : d.WellFormed) (hlo : -(2 ^ 31) ≤ n) (hhi : n < 2 ^ 31) :
    (d.drawCard .little fuel r = .abort d ∨
        ∃ c d1, d.drawCard .little fuel r = .ret c d1 ∧ d1.WellFormed) ∧
      (d.peekCards .little fuel rs n = .abort d ∨
        ∃ L d1, d.peekCards .little fuel rs n = .ret L d1 ∧ d1.WellFormed) := by
  have h64 : d.numCards ≤ 64 := hwf.1.2 ▸ popcount_le d.deck
  constructor
  · by_cases hleft : d.cardsLeft = 0
    · exact Or.inl (by simp only [Deck.drawCard, if_pos hleft])
    · right
      obtain ⟨deck, numCards, buf⟩ := d
      cases buf with
      | cons c rest =>
        refine ⟨c, ⟨deck, numCards, rest⟩, by simp only [Deck.drawCard, if_neg hleft], hwf.1, ?_⟩
        obtain ⟨hnd, hmem⟩ := hwf.2
        exact ⟨(List.nodup_cons.1 hnd).2, fun c1 hc1 => hmem c1 (List.mem_cons_of_mem _ hc1)⟩
      | nil =>
        have hne : numCards ≠ 0 := by
          simp only [Deck.cardsLeft, List.length_nil, Nat.add_zero] at hleft
          intro h
          subst h
          exact hleft rfl
        obtain ⟨p, _, hbit, _, hdraw⟩ :=
          drawCard_pool fuel r ⟨deck, numCards, []⟩ hfuel hwf.1 rfl hne
        refine ⟨2 ^ p, ⟨deck ^^^ 2 ^ p, numCards - 1, []⟩, hdraw, poolOK_after_draw hwf.1 hbit, ?_⟩
        exact ⟨List.nodup_nil, fun c hc => absurd hc (List.not_mem_nil c)⟩
  · by_cases hneg : n < 0
    · left
      have hu : toU64 n = (n + 2 ^ 64).toNat := by
        unfold toU64
        have : n % 2 ^ 64 = n + 2 ^ 64 := by omega
        rw [this]
      have hlt : d.numCards < toU64 n := by rw [hu]; omega
      simp only [Deck.peekCards, if_pos hlt]
    · have h0 : 0 ≤ n := by omega
      have hu : toU64 n = n.toNat := toU64_of_nonneg h0 (by omega)
      by_cases hlt : d.numCards < toU64 n
      · exact Or.inl (by simp only [Deck.peekCards, if_pos hlt])
      · right
        obtain ⟨d1, hret, hwf1⟩ :=
          peekCards_ok fuel hfuel rs d n hwf h0 (by rw [hu] at hlt; omega)
        exact ⟨_, d1, hret, hwf1⟩

theorem C17_wellFormed_preserved_witness :
    (Deck.drawCard .little 64 7 ⟨0x000FFFFFFFFFFFF8, 49, [4, 1]⟩ =
          .abort ⟨0x000FFFFFFFFFFFF8, 49, [4, 1]⟩ ∨
        ∃ c d1, Deck.drawCard .little 64 7 ⟨0x000FFFFFFFFFFFF8, 49, [4, 1]⟩ = .ret c d1 ∧
          d1.WellFormed) ∧
      (Deck.peekCards .little 64 (fun k => k) 6 ⟨0x000FFFFFFFFFFFF8, 49, [4, 1]⟩ =
          .abort ⟨0x000FFFFFFFFFFFF8, 49, [4, 1]⟩ ∨
        ∃ L d1, Deck.peekCards .little 64 (fun k => k) 6 ⟨0x000FFFFFFFFFFFF8, 49, [4, 1]⟩ =
          .ret L d1 ∧ d1.WellFormed) :=
  C17_wellFormed_preserved 64 7 (fun k => k) ⟨0x000FFFFFFFFFFFF8, 49, [4, 1]⟩ 6 (by decide)
    (by decide) (by decide) (by decide)

theorem drawCards_append (e : Endian) (fuel : Nat) :
    ∀ (rs1 rs2 : List Nat) (d d1 d2 : Deck) (cs1 cs2 : List Card),
      d.drawCards e fuel rs1 = .ret cs1 d1 → d1.drawCards e fuel rs2 = .ret cs2 d2 →
      d.drawCards e fuel (rs1 ++ rs2) = .ret (cs1 ++ cs2) d2 := by
  intro rs1
  induction rs1 with
  | nil =>
    intro rs2 d d1 d2 cs1 cs2 h1 h2
    simp only [Deck.drawCards] at h1
    injection h1 with ha hb
    subst ha hb
    simpa using h2
  | cons r rs1 ih =>
    intro rs2 d d1 d2 cs1 cs2 h1 h2
    simp only [Deck.drawCards, List.cons_append] at h1 ⊢
    cases hd : d.drawCard e fuel r with
    | ret c d3 =>
      rw [hd] at h1
      simp only at h1 ⊢
      cases hrec : d3.drawCards e fuel rs1 with
      | ret cs d4 =>
        rw [hrec] at h1
        simp only at h1
        injection h1 with ha hb
        subst ha hb
        have hih := ih rs2 d3 d4 d2 cs cs2 hrec h2
        show (match Deck.drawCards e fuel (rs1 ++ rs2) d3 with
          | Outcome.ret cards d2 => Outcome.ret (c :: cards) d2
          | other => other) = Outcome.ret (c :: cs ++ cs2) d2
        rw [hih]
        rfl
      | abort s => rw [hrec] at h1; exact Outcome.noConfusion h1
      | undefinedBehaviour => rw [hrec] at h1; exact Outcome.noConfusion h1
      | outOfFuel => rw [hrec] at h1; exact Outcome.noConfusion h1
    | abort s => rw [hd] at h1; exact Outcome.noConfusion h1
    | undefinedBehaviour => rw [hd] at h1; exact Outcome.noConfusion h1
    | outOfFuel => rw [hd] at h1; exact Outcome.noConfusion h1

/-- C12: no permanent loss after `redeck`. On a well-formed deck, for a
single-bit card `c = 2^i` below `2^52` that is neither in the mask nor in the
peek buffer: after `redeck c`, whatever the generator hands out, `cardsLeft`
successive calls of `drawCard` all return, and `c` is among the returned cards
exactly once. -/
theorem C12_redeck_then_draw_all (fuel : Nat) (rs : List Nat) (d : Deck) (i : Nat)
    (hfuel : 64 ≤ fuel) (hwf : d.WellFormed) (hi : i < 52)
    (hmask : d.deck.testBit i = false) (hbuf : 2 ^ i ∉ d.peekedCards)
    (hrs : rs.length = (d.redeck (2 ^ i)).cardsLeft) :
    ∃ cs d1, (d.redeck (2 ^ i)).drawCards .little fuel rs = .ret cs d1 ∧
      cs.length = rs.length ∧ cs.count (2 ^ i) = 1 := by
  obtain ⟨deck, numCards, buf⟩ := d
  obtain ⟨⟨hdeck, hcnt⟩, hpeek⟩ := hwf
  have hcnt1 : numCards = popcount deck := hcnt
  have hdeck1 : deck < 2 ^ 52 := hdeck
  have hmask1 : deck.testBit i = false := hmask
  have h64 : numCards ≤ 64 := hcnt1 ▸ popcount_le deck
  have hlen : buf.length ≤ 52 := peekOK_length hpeek
  have hmod : (numCards + 1) % 2 ^ 64 = numCards + 1 := Nat.mod_eq_of_lt (by omega)
  have hre : Deck.redeck ⟨deck, numCards, buf⟩ (2 ^ i) = ⟨deck ||| 2 ^ i, numCards + 1, buf⟩ := by
    simp only [Deck.redeck, hmod]
  rw [hre] at hrs ⊢
  have hrs1 : rs.length = numCards + 1 + buf.length := by
    rw [hrs]
    simp only [Deck.cardsLeft]
    exact Nat.mod_eq_of_lt (by omega)
  have htake : (rs.take buf.length).length = buf.length := by
    rw [List.length_take]
    omega
  have hdrop : (rs.drop buf.length).length = numCards + 1 := by
    rw [List.length_drop]
    omega
  have hfirst : Deck.drawCards .little fuel (rs.take buf.length) ⟨deck ||| 2 ^ i, numCards + 1, buf⟩ =
      .ret buf ⟨deck ||| 2 ^ i, numCards + 1, []⟩ := by
    rw [drawCards_buffer .little fuel (rs.take buf.length) ⟨deck ||| 2 ^ i, numCards + 1, buf⟩
      (by rw [htake]) (by simp only; omega)]
    simp only [htake, List.take_length, List.drop_length]
  have hpool : Deck.PoolOK ⟨deck ||| 2 ^ i, numCards + 1, []⟩ := by
    refine ⟨Nat.or_lt_two_pow hdeck1 (Nat.pow_lt_pow_right (by decide) hi), ?_⟩
    show numCards + 1 = popcount (deck ||| 2 ^ i)
    rw [popcount_or_two_pow hmask1 (by omega), hcnt1]
  obtain ⟨cs2, d2, hrun, hl2, hnd, hmem, hor, hnum, hpool2, _⟩ :=
    drawCards_pool fuel hfuel (rs.drop buf.length) ⟨deck ||| 2 ^ i, numCards + 1, []⟩ hpool rfl
      (by rw [hdrop])
  have hnum0 : d2.numCards = 0 := by
    have : d2.numCards + (rs.drop buf.length).length = numCards + 1 := hnum
    omega
  have hdeck0 : d2.deck = 0 := by
    apply eq_zero_of_popcount
    · exact lt_of_lt_of_le hpool2.1 (Nat.pow_le_pow_right (by decide) (by decide))
    · rw [← hpool2.2, hnum0]
  have hfull : orAll cs2 = deck ||| 2 ^ i := by
    rw [hdeck0, Nat.or_zero] at hor
    exact hor
  have hin : 2 ^ i ∈ cs2 := by
    have hb : (orAll cs2).testBit i = true := by
      rw [hfull, Nat.testBit_or, Nat.testBit_two_pow]
      simp
    obtain ⟨c, hc, hcb⟩ := orAll_testBit hb
    obtain ⟨j, _, hcj, _⟩ := hmem c hc
    rw [hcj, Nat.testBit_two_pow] at hcb
    have hji : j = i := by simpa using hcb
    rw [← hji, ← hcj]
    exact hc
  have hall := drawCards_append .little fuel (rs.take buf.length) (rs.drop buf.length) _ _ _ _ _
    hfirst hrun
  rw [List.take_append_drop] at hall
  refine ⟨buf ++ cs2, d2, hall, ?_, ?_⟩
  · rw [List.length_append, hl2, hdrop, hrs1]
    omega
  · rw [List.count_append, List.count_eq_zero.2 hbuf, List.count_eq_one_of_mem hnd hin]

theorem C12_redeck_then_draw_all_witness :
    Deck.WellFormed ⟨0x6, 2, [8]⟩ ∧
      ∃ cs d1, (Deck.redeck ⟨0x6, 2, [8]⟩ (2 ^ 0)).drawCards .little 64 [5, 6, 7, 8] =
        .ret cs d1 ∧ cs.length = [5, 6, 7, 8].length ∧ cs.count (2 ^ 0) = 1 :=
  ⟨by decide,
    C12_redeck_then_draw_all 64 [5, 6, 7, 8] ⟨0x6, 2, [8]⟩ 0 (by decide) (by decide) (by decide)
      (by decide) (by decide) (by decide)⟩

/-! ## `getValue` outside the single-bit cards -/

theorem value_table :
    ∀ i, i < 64 → getValue .little 13 (2 ^ i) = .ret ((i % 13 : Nat) : Int) () := by
  decide

theorem testCardOrbit_step :
    ∀ t ∈ testCardOrbit, toU64 t ≠ 3 ∧ toInt (shiftLarger .little (toU64 t) 1) ∈ testCardOrbit := by
  decide

theorem count_three_never_returns :
    ∀ (fuel : Nat) (t ret : Int), t ∈ testCardOrbit →
      getValue.count .little 3 fuel t ret = .outOfFuel ∨
        getValue.count .little 3 fuel t ret = .undefinedBehaviour := by
  intro fuel
  induction fuel with
  | zero => intro t ret _; exact Or.inl rfl
  | succ fuel ih =>
    intro t ret ht
    obtain ⟨hne, hnext⟩ := testCardOrbit_step t ht
    simp only [getValue.count, if_pos hne]
    by_cases hmax : ret = INT_MAX
    · rw [if_pos hmax]
      exact Or.inr rfl
    · rw [if_neg hmax]
      exact ih _ _ hnext

theorem getValue_three (fuel : Nat) :
    getValue .little fuel 3 = .outOfFuel ∨ getValue .little fuel 3 = .undefinedBehaviour := by
  cases fuel with
  | zero => exact Or.inl rfl
  | succ fuel =>
    have hn : getValue.normalise .little (fuel + 1) 3 = some 3 := by
      simp only [getValue.normalise]
      rfl
    have h3 : (3 : Nat) ≠ 0 := by decide
    simp only [getValue, if_neg h3, hn]
    exact count_three_never_returns (fuel + 1) 1 0 (by decide)

/-- C14, counterexample: the card value `3` (two bits set) is not zero, yet
`getValue 3` never returns: `testCard` runs through `1, 2, 4, ...` and then
stays `0`, never equal to `3`, so the second loop does not end (and `++ret`
eventually overflows). -/
theorem C14_counterexample :
    getValue .little 1000 3 = .outOfFuel ∧
      (∀ fuel, getValue .little fuel 3 = .outOfFuel ∨
        getValue .little fuel 3 = .undefinedBehaviour) ∧
      (∀ fuel v, getValue .little fuel 3 ≠ .ret v ()) := by
  refine ⟨by decide, getValue_three, ?_⟩
  intro fuel v h
  rcases getValue_three fuel with h1 | h1 <;> rw [h1] at h <;> exact Outcome.noConfusion h

/-- C14, amended: `getValue 0` aborts, and for every single-bit 64-bit card
`c = 2^i` (`i < 64`), `getValue c` returns, without aborting, the value `i % 13`,
which lies in `Ace (0) .. King (12)`. -/
theorem C14_getValue_on_single_bits (fuel i : Nat) (hfuel : 13 ≤ fuel) (hi : i < 64) :
    getValue .little fuel 0 = .abort () ∧
      getValue .little fuel (2 ^ i) = .ret ((i % 13 : Nat) : Int) () ∧ i % 13 ≤ 12 :=
  ⟨rfl, getValue_mono .little 13 fuel _ _ hfuel (value_table i hi), by omega⟩

theorem C14_getValue_on_single_bits_witness :
    getValue .little 13 0 = .abort () ∧
      getValue .little 13 (2 ^ 63) = .ret ((63 % 13 : Nat) : Int) () ∧ 63 % 13 ≤ 12 :=
  C14_getValue_on_single_bits 13 63 (by decide) (by decide)

/-! ## The big-endian configuration -/

theorem loop_big_zero (deck : Nat) :
    ∀ (fuel : Nat) (rand : Int), Deck.getRandomCard.loop .big deck fuel 0 rand = none ∨
      rand ≤ 0 := by
  intro fuel
  induction fuel with
  | zero => intro rand; exact Or.inl rfl
  | succ fuel ih =>
    intro rand
    by_cases hr : rand > 0
    · left
      have hz : ¬ (0 &&& deck ≠ 0) := by simp
      simp only [Deck.getRandomCard.loop, if_pos hr, if_neg hz]
      have hs : shiftLarger .big 0 1 = 0 := rfl
      rw [hs]
      rcases ih rand with h | h
      · exact h
      · omega
    · right
      omega

theorem getRandomCard_big_new (fuel r : Nat) :
    (Deck.new .big).getRandomCard .big fuel r = .outOfFuel := by
  have hnum : (Deck.new .big).numCards = 52 := rfl
  have hdeck : (Deck.new .big).deck = 0xFFFFFFFFFFFFF000 := rfl
  have hne : (Deck.new .big).numCards ≠ 0 := by rw [hnum]; decide
  have hmod : r % 52 < 52 := Nat.mod_lt _ (by decide)
  have hti : toInt (r % 52 + 1) = ((r % 52 + 1 : Nat) : Int) := toInt_small (by omega)
  have hloop : Deck.getRandomCard.loop .big 0xFFFFFFFFFFFFF000 fuel 1 (toInt (r % 52 + 1)) =
      none := by
    cases fuel with
    | zero => rfl
    | succ fuel =>
      have hpos : toInt (r % 52 + 1) > 0 := by rw [hti]; omega
      have hz : ¬ (1 &&& 0xFFFFFFFFFFFFF000 ≠ 0) := by decide
      have hs : shiftLarger .big 1 1 = 0 := rfl
      simp only [Deck.getRandomCard.loop, if_pos hpos, if_neg hz, hs]
      rcases loop_big_zero 0xFFFFFFFFFFFFF000 fuel (toInt (r % 52 + 1)) with h | h
      · exact h
      · omega
  have h52 : ¬ ((52 : Nat) = 0) := by decide
  simp only [Deck.getRandomCard, hnum, hdeck, hloop, if_neg h52]

theorem normalise_big (fuel : Nat) : ∀ c, getValue.normalise .big fuel c = none := by
  induction fuel with
  | zero => intro c; rfl
  | succ fuel ih =>
    intro c
    have hs : shiftLarger .big 1 NumValues = 0 := rfl
    have hge : c ≥ 0 := Nat.zero_le c
    simp only [getValue.normalise, hs, if_pos hge]
    exact ih _

/-- C20: in the big-endian configuration the first `drawCard` on a freshly
constructed deck never returns, for any generator output: `shiftLarger` is a
right shift, so the probe `card = 1` (bit 0 is not in the mask
`0xFFFFFFFFFFFFF000`) becomes `0` after one step and stays `0`, and `rand` is
never decremented. `getValue` does not return on any nonzero card either,
because `card >= shiftLarger(1, 13) = 0` always holds. -/
theorem C20_big_endian_draw_never_returns :
    ∀ fuel r, (Deck.new .big).drawCard .big fuel r = .outOfFuel ∧
      ∀ c, c ≠ 0 → getValue .big fuel c = .outOfFuel := by
  intro fuel r
  constructor
  · have hleft : (Deck.new .big).cardsLeft ≠ 0 := by decide
    have hbuf : (Deck.new .big).peekedCards = [] := rfl
    unfold Deck.drawCard
    rw [if_neg hleft]
    split
    · rename_i heq
      rw [hbuf] at heq
      exact List.noConfusion heq
    · exact getRandomCard_big_new fuel r
  · intro c hc
    simp only [getValue, if_neg hc, normalise_big]

/-! ## The modulo of `getRandomCard` -/

theorem getRandomCard_undefined_iff (e : Endian) (fuel r : Nat) (d : Deck) :
    d.getRandomCard e fuel r = .undefinedBehaviour ↔ d.numCards = 0 := by
  unfold Deck.getRandomCard
  constructor
  · intro h
    by_contra hne
    rw [if_neg hne] at h
    split at h <;> exact Outcome.noConfusion h
  · intro h
    rw [if_pos h]

theorem fill_ne_undefined (e : Endian) (fuel : Nat) (rs : Nat → Nat) :
    ∀ (rounds k : Nat) (d : Deck), rounds ≤ d.numCards → d.numCards < 2 ^ 64 →
      Deck.peekCards.fill e fuel rs rounds k d ≠ .undefinedBehaviour := by
  intro rounds
  induction rounds with
  | zero => intro k d _ _; simp [Deck.peekCards.fill]
  | succ rounds ih =>
    intro k d hle hlt
    simp only [Deck.peekCards.fill]
    cases hg : d.getRandomCard e fuel (rs k) with
    | ret c d2 =>
      obtain ⟨_, hnum, _, _⟩ := getRandomCard_ret hg
      have hmod : (d.numCards - 1) % 2 ^ 64 = d.numCards - 1 := Nat.mod_eq_of_lt (by omega)
      rw [hmod] at hnum
      exact ih (k + 1) _ (by show rounds ≤ d2.numCards; omega) (by show d2.numCards < 2 ^ 64; omega)
    | abort s => exact Outcome.noConfusion
    | undefinedBehaviour =>
      have := (getRandomCard_undefined_iff e fuel (rs k) d).1 hg
      omega
    | outOfFuel => exact Outcome.noConfusion

theorem peekCards_zero_negative_size (buf : List Card) (hlen : toInt buf.length = -1) :
    Deck.peekCards.fill .little 64 (fun _ => 0) (0 - toInt buf.length).toNat 0 ⟨0, 0, buf⟩ =
        .undefinedBehaviour ∧
      Deck.peekCards .little 64 (fun _ => 0) 0 ⟨0, 0, buf⟩ = .undefinedBehaviour := by
  have hchk : ¬ (0 < toU64 0) := by decide
  have hfill : Deck.peekCards.fill .little 64 (fun _ => 0) 1 0 ⟨0, 0, buf⟩ =
      .undefinedBehaviour := by
    simp only [Deck.peekCards.fill, Deck.getRandomCard, if_true]
  have hone : ((0 : Int) - -1).toNat = 1 := by decide
  constructor
  · rw [hlen, hone]
    exact hfill
  · simp only [Deck.peekCards, if_neg hchk, hlen, hone, hfill]

theorem toInt_length_replicate :
    toInt (List.replicate (2 ^ 32 - 1) (1 : Card)).length = -1 := by
  rw [List.length_replicate]
  decide

/-- C18, counterexample: a deck with an empty pool (`deck = 0`, `numCards = 0`)
and `2^32 - 1` cards in the peek buffer. In `peekCards(0)` the check
`numCards < count` passes, `int i = peekedCards.size()` is `-1`, so the loop
body runs once and calls `getRandomCard` with `numCards = 0`: the modulo is
taken by zero. -/
theorem C18_counterexample :
    toInt (List.replicate (2 ^ 32 - 1) (1 : Card)).length = -1 ∧
      ¬ (0 < toU64 0) ∧
      Deck.peekCards.fill .little 64 (fun _ => 0)
        (0 - toInt (List.replicate (2 ^ 32 - 1) (1 : Card)).length).toNat 0
        ⟨0, 0, List.replicate (2 ^ 32 - 1) 1⟩ = .undefinedBehaviour ∧
      Deck.peekCards .little 64 (fun _ => 0) 0 ⟨0, 0, List.replicate (2 ^ 32 - 1) 1⟩ =
        .undefinedBehaviour :=
  ⟨toInt_length_replicate, by decide,
    (peekCards_zero_negative_size _ toInt_length_replicate).1,
    (peekCards_zero_negative_size _ toInt_length_replicate).2⟩

/-- C18, amended: `getRandomCard` takes its modulo by zero exactly when it is
called with `numCards = 0`. `drawCard` never does that, on any deck. Neither
does `peekCards n` for a count `n ≥ 0`, on any deck whose peek buffer holds
fewer than `2^31` cards, so that `int i = peekedCards.size()` is not negative:
every call of `getRandomCard` made by its loop happens with `numCards ≥ 1`. -/
theorem C18_no_modulo_by_zero (e : Endian) (fuel r : Nat) (rs : Nat → Nat) (d : Deck) (n : Int)
    (hnum : d.numCards < 2 ^ 64) (hlen : d.peekedCards.length < 2 ^ 31)
    (h0 : 0 ≤ n) (hint : n < 2 ^ 31) :
    (∀ r0 d0, Deck.getRandomCard e fuel r0 d0 = .undefinedBehaviour ↔ d0.numCards = 0) ∧
      d.drawCard e fuel r ≠ .undefinedBehaviour ∧
      (¬ d.numCards < toU64 n →
        Deck.peekCards.fill e fuel rs (n - toInt d.peekedCards.length).toNat 0 d ≠
          .undefinedBehaviour) ∧
      d.peekCards e fuel rs n ≠ .undefinedBehaviour := by
  have hti : toInt d.peekedCards.length = (d.peekedCards.length : Int) := toInt_small hlen
  have hu : toU64 n = n.toNat := toU64_of_nonneg h0 (by omega)
  have hfill : ¬ d.numCards < toU64 n →
      Deck.peekCards.fill e fuel rs (n - toInt d.peekedCards.length).toNat 0 d ≠
        .undefinedBehaviour := by
    intro hchk
    rw [hu] at hchk
    exact fill_ne_undefined e fuel rs _ 0 d (by rw [hti]; omega) hnum
  refine ⟨fun r0 d0 => getRandomCard_undefined_iff e fuel r0 d0, ?_, hfill, ?_⟩
  · unfold Deck.drawCard
    split
    · exact Outcome.noConfusion
    · rename_i hleft
      split
      · exact Outcome.noConfusion
      · rename_i hbuf
        intro h
        have hz := (getRandomCard_undefined_iff e fuel r d).1 h
        apply hleft
        simp [Deck.cardsLeft, hz, hbuf]
  · intro h
    unfold Deck.peekCards at h
    split at h
    · exact Outcome.noConfusion h
    · rename_i hchk
      split at h
      · rename_i u d1 hf
        obtain ⟨_, _, ext, hext, hcat⟩ := fill_ret e fuel rs _ _ _ _ _ hf
        have hc : 0 ≤ n ∧ n.toNat ≤ d1.peekedCards.length := by
          refine ⟨h0, ?_⟩
          rw [hcat, List.length_append, hext, hti]
          omega
        rw [if_pos hc] at h
        exact Outcome.noConfusion h
      · exact Outcome.noConfusion h
      · rename_i hf
        exact hfill hchk hf
      · exact Outcome.noConfusion h

theorem C18_no_modulo_by_zero_witness :
    Deck.drawCard .little 64 3 ⟨0x5, 2, []⟩ ≠ .undefinedBehaviour ∧
      Deck.peekCards .little 64 (fun _ => 0) 2 ⟨0x5, 2, []⟩ ≠ .undefinedBehaviour :=
  ⟨(C18_no_modulo_by_zero .little 64 3 (fun _ => 0) ⟨0x5, 2, []⟩ 2 (by decide) (by decide)
      (by decide) (by decide)).2.1,
    (C18_no_modulo_by_zero .little 64 3 (fun _ => 0) ⟨0x5, 2, []⟩ 2 (by decide) (by decide)
      (by decide) (by decide)).2.2.2⟩

/-! ## How often a card is selected -/

theorem cntBelow_lt_of_lt {m p q : Nat} (hp : m.testBit p = true) (hpq : p < q) :
    cntBelow m p < cntBelow m q := by
  have h1 := cntBelow_succ m p
  rw [hp] at h1
  simp only [if_true] at h1
  have h2 : cntBelow m (p + 1) ≤ cntBelow m q := cntBelow_mono m (by omega)
  omega

theorem cntBelow_inj {m p q : Nat} (hp : m.testBit p = true) (hq : m.testBit q = true)
    (h : cntBelow m p = cntBelow m q) : p = q := by
  rcases Nat.lt_trichotomy p q with hlt | heq | hgt
  · have := cntBelow_lt_of_lt hp hlt
    omega
  · exact heq
  · have := cntBelow_lt_of_lt hq hgt
    omega

theorem selects_iff (fuel r : Nat) (d : Deck) (p : Nat) (hfuel : 64 ≤ fuel)
    (hdeck : d.deck < 2 ^ 63) (hcnt : d.numCards = popcount d.deck) (hpos : d.numCards ≠ 0)
    (hp : d.deck.testBit p = true) :
    d.selects .little fuel (2 ^ p) r = true ↔ r % d.numCards = cntBelow d.deck p := by
  obtain ⟨q, _, hq, hk, hret⟩ := getRandomCard_spec fuel r d hfuel hdeck hcnt hpos
  simp only [Deck.selects, hret, decide_eq_true_eq]
  constructor
  · intro h
    have hqp : q = p := Nat.pow_right_injective (le_refl 2) h
    rw [← hqp, hk]
  · intro h
    have hqp : q = p := cntBelow_inj hq hp (by rw [hk, h])
    rw [hqp]

theorem selectionCount_eq (fuel : Nat) (d : Deck) (p : Nat) (hfuel : 64 ≤ fuel)
    (hdeck : d.deck < 2 ^ 63) (hcnt : d.numCards = popcount d.deck) (hpos : d.numCards ≠ 0)
    (hp : d.deck.testBit p = true) :
    d.selectionCount .little fuel (2 ^ p) =
      (RAND_MAX + 1) / d.numCards +
        (if cntBelow d.deck p < (RAND_MAX + 1) % d.numCards then 1 else 0) := by
  have hp63 : p < 63 := testBit_lt_of_lt hdeck hp
  have hk : cntBelow d.deck p < d.numCards := by
    rw [hcnt]
    exact cntBelow_lt_of_lt hp (by omega)
  have hcongr : d.selectionCount .little fuel (2 ^ p) =
      Nat.count (fun r => r ≡ cntBelow d.deck p [MOD d.numCards]) (RAND_MAX + 1) := by
    unfold Deck.selectionCount
    apply le_antisymm
    · apply Nat.count_mono_left
      intro r hr
      show r % d.numCards = cntBelow d.deck p % d.numCards
      rw [Nat.mod_eq_of_lt hk]
      exact (selects_iff fuel r d p hfuel hdeck hcnt hpos hp).1 hr
    · apply Nat.count_mono_left
      intro r hr
      have hr1 : r % d.numCards = cntBelow d.deck p % d.numCards := hr
      rw [Nat.mod_eq_of_lt hk] at hr1
      exact (selects_iff fuel r d p hfuel hdeck hcnt hpos hp).2 hr1
  rw [hcongr, Nat.count_modEq_card _ (Nat.pos_of_ne_zero hpos), Nat.mod_eq_of_lt hk]

/-- C16, counterexample: on a fresh deck (52 cards), of the `2^31` generator
outputs `0..RAND_MAX`, 41297763 select the card at bit 0 and 41297762 select the
card at bit 51: `2^31 = 52 * 41297762 + 24`, so the 24 lowest cards get one
output more than the other 28. -/
theorem C16_counterexample :
    (Deck.new .little).WellFormed ∧
      (Deck.new .little).selectionCount .little 64 (2 ^ 0) = 41297763 ∧
      (Deck.new .little).selectionCount .little 64 (2 ^ 51) = 41297762 := by
  have h52 : (Deck.new .little).numCards = 52 := rfl
  refine ⟨by decide, ?_, ?_⟩
  · rw [selectionCount_eq 64 (Deck.new .little) 0 (by decide) (by decide) (by decide)
      (by decide) (by decide), h52]
    decide
  · rw [selectionCount_eq 64 (Deck.new .little) 51 (by decide) (by decide) (by decide)
      (by decide) (by decide), h52]
    decide

/-- C16, amended: on a well-formed deck with `n = numCards ≥ 1`, the card at a
set bit `p` of the mask, with `k - 1` set bits below it, is selected by
`getRandomCard` for `2^31 / n` of the generator outputs `0..RAND_MAX`, plus one
more when `k - 1 < 2^31 % n`. So the counts of two available cards differ by at
most 1, and they are all equal when `n` divides `2^31`. -/
theorem C16_selection_counts (fuel : Nat) (d : Deck) (p q : Nat) (hfuel : 64 ≤ fuel)
    (hwf : d.WellFormed) (hpos : 1 ≤ d.numCards)
    (hp : d.deck.testBit p = true) (hq : d.deck.testBit q = true) :
    d.selectionCount .little fuel (2 ^ p) =
        2 ^ 31 / d.numCards + (if cntBelow d.deck p < 2 ^ 31 % d.numCards then 1 else 0) ∧
      d.selectionCount .little fuel (2 ^ p) ≤ d.selectionCount .little fuel (2 ^ q) + 1 ∧
      (2 ^ 31 % d.numCards = 0 →
        d.selectionCount .little fuel (2 ^ p) = d.selectionCount .little fuel (2 ^ q)) := by
  have hdeck : d.deck < 2 ^ 63 :=
    lt_of_lt_of_le hwf.1.1 (Nat.pow_le_pow_right (by decide) (by decide))
  have hne : d.numCards ≠ 0 := by omega
  have hR : RAND_MAX + 1 = 2 ^ 31 := by decide
  have h1 := selectionCount_eq fuel d p hfuel hdeck hwf.1.2 hne hp
  have h2 := selectionCount_eq fuel d q hfuel hdeck hwf.1.2 hne hq
  rw [hR] at h1 h2
  refine ⟨?_, ?_, ?_⟩
  · exact h1
  · rw [h1, h2]
    split <;> split <;> omega
  · intro hz
    rw [h1, h2, hz]
    simp

theorem C16_selection_counts_witness :
    Deck.WellFormed ⟨0xF0, 4, [1]⟩ ∧
      (Deck.selectionCount .little 64 ⟨0xF0, 4, [1]⟩ (2 ^ 4) = 2 ^ 31 / 4 + 0 ∧
        Deck.selectionCount .little 64 ⟨0xF0, 4, [1]⟩ (2 ^ 7) = 2 ^ 31 / 4 + 0) :=
  ⟨by decide,
    (C16_selection_counts 64 ⟨0xF0, 4, [1]⟩ 4 7 (by decide) (by decide) (by decide) (by decide)
      (by decide)).1,
    (C16_selection_counts 64 ⟨0xF0, 4, [1]⟩ 7 4 (by decide) (by decide) (by decide) (by decide)
      (by decide)).1⟩

end DeckOCards
